import Mathlib

/-!
# RewindOS core — shallow embedding and verification

This file embeds, in Lean, the parts of the RewindOS code base that the
verified properties talk about:

* `crates/rewindos-core/src/hasher.rs` — perceptual-hash comparison
  (`PerceptualHasher::hamming_distance`, `PerceptualHasher::is_duplicate`);
* `crates/rewindos-core/src/db.rs` — scene deduplication
  (`Database::deduplicate_results`), deduplicated FTS search
  (`Database::search_deduped`), active blocks (`Database::get_active_blocks`),
  and the SQL statement sequences of `insert_ocr_text`,
  `delete_screenshots_before` and `delete_screenshots_in_range`;
* `crates/rewindos-core/src/ocr.rs` — TSV parsing (`parse_tsv_output`,
  `join_words`);
* `crates/rewindos-daemon/src/pipeline.rs` — the capture/hash stages' metric
  counting, sequentialised per frame;
* `crates/rewindos-daemon/src/service.rs` — the D-Bus `Pause`/`Resume`
  handlers' effect on the `is_capturing` flag.

Modelling conventions:

* Rust `i64`/`i32` become `Int` (overflow is irrelevant at the values these
  functions handle; where a Rust parse enforces the `i32` range, the model
  enforces it too); `u8` byte values are `Nat` (only their low 8 bits are
  ever inspected, matching `u8`); `usize` counts are `Nat`.
* Rust `f32`/`f64` values that the code merely stores (FTS `rank`) or compares
  against a decimal constant (OCR confidence) are modelled as exact rationals.
* Rust `String`/`&str` in the OCR parser are modelled as `List Char`, so
  that splitting/trimming/appending are ordinary list operations.
* SQLite is modelled at the statement level: each SQL statement is a state
  transformer on a record of tables, and an execution either commits every
  statement or fails at a chosen statement index (auto-commit outside an
  explicit transaction, rollback of uncommitted buffered writes inside one).
  Queries (`SELECT`) are modelled by the data they return.
* External effects (the `image_hasher` library's hash of an image, WebP
  encoding on disk, tesseract itself) are oracles: per-frame inputs carry the
  values those effects would produce.
-/

namespace RewindOS

/-! ## hasher.rs — hamming distance and duplicate detection -/

/-- `u32::MAX`, the value `hamming_distance` returns when either argument is
not a valid 8-byte hash (`ImageHash::<[u8; 8]>::from_bytes` fails unless the
slice length is exactly 8). -/
def u32MAX : Nat := 4294967295

/-- Number of differing bits among the low 8 bits of two bytes
(`u8` values; the Rust `dist` is the popcount of the bytewise xor). -/
def byteBitsDiff (x y : Nat) : Nat :=
  ((List.range 8).filter (fun i => x.testBit i != y.testBit i)).length

/-- `PerceptualHasher::hamming_distance` (hasher.rs:37-46): decodes both byte
slices as `[u8; 8]` hashes; if either slice is not exactly 8 bytes long the
decode fails and the function returns `u32::MAX`, otherwise the number of
differing bits. -/
def hamming_distance (a b : List Nat) : Nat :=
  if a.length = 8 ∧ b.length = 8 then
    ((a.zip b).map (fun p => byteBitsDiff p.1 p.2)).sum
  else u32MAX

/-- `PerceptualHasher::is_duplicate` (hasher.rs:52-57): true iff some recent
`(id, hash)` pair's hash is within `threshold` hamming distance. -/
def is_duplicate (hash : List Nat) (recent_hashes : List (Int × List Nat))
    (threshold : Nat) : Bool :=
  recent_hashes.any (fun p => hamming_distance hash p.2 ≤ threshold)

/-! ## db.rs — search results and scene deduplication -/

/-- `SearchResult` (schema.rs:72-85). `rank` is an FTS5 `f64`, modelled as a
rational; the dedup code never inspects it. -/
structure SearchResult where
  id : Int
  timestamp : Int
  app_name : Option (List Char)
  window_title : Option (List Char)
  thumbnail_path : Option (List Char)
  file_path : List Char
  matched_text : List Char
  rank : ℚ
  group_count : Option Int
  group_screenshot_ids : Option (List Int)
  deriving DecidableEq, Repr

/-- A dedup group as built by `deduplicate_results` (db.rs:1057): the Rust
code stores the representative's index into the immutable `results` vector
and its member ids; since it only ever reads `results[group.0]`, we store the
representative element itself. -/
abbrev DedupGroup := SearchResult × List Int

/-- The inner `for group in &mut groups` loop of `deduplicate_results`
(db.rs:1070-1079): walk the groups in order; a group whose representative has
a stored hash within `threshold` of `ha` receives `rid` as a new member
(`some` of the updated groups); groups whose representative's hash is missing
are skipped; if no group matches, `none`. -/
def tryAssign (hashOf : Int → Option (List Nat)) (threshold : Nat)
    (ha : List Nat) (rid : Int) :
    List DedupGroup → Option (List DedupGroup)
  | [] => none
  | g :: gs =>
    match hashOf g.1.id with
    | some hb =>
      if hamming_distance ha hb ≤ threshold then
        some ((g.1, g.2 ++ [rid]) :: gs)
      else (tryAssign hashOf threshold ha rid gs).map (g :: ·)
    | none => (tryAssign hashOf threshold ha rid gs).map (g :: ·)

/-- One iteration of the outer candidate loop of `deduplicate_results`
(db.rs:1059-1084): a candidate with no stored hash starts its own group;
otherwise it joins the first matching group or starts a new one. -/
def dedupInsert (hashOf : Int → Option (List Nat)) (threshold : Nat)
    (groups : List DedupGroup) (r : SearchResult) : List DedupGroup :=
  match hashOf r.id with
  | none => groups ++ [(r, [r.id])]
  | some ha =>
    match tryAssign hashOf threshold ha r.id groups with
    | some gs => gs
    | none => groups ++ [(r, [r.id])]

/-- The full greedy grouping pass of `deduplicate_results` over the candidate
list in rank order. `hashOf` models the `HashMap` built from
`get_hashes_for_ids` (db.rs:1052-1054): the stored `perceptual_hash` bytes of
each screenshot id, `none` when the id has no row. -/
def dedupGroups (hashOf : Int → Option (List Nat)) (threshold : Nat)
    (results : List SearchResult) : List DedupGroup :=
  results.foldl (dedupInsert hashOf threshold) []

/-- The result-building loop of `deduplicate_results` (db.rs:1087-1096): each
group emits its representative; groups of size > 1 set `group_count` and
`group_screenshot_ids` on the emitted clone. -/
def buildDeduped (groups : List DedupGroup) : List SearchResult :=
  groups.map (fun g =>
    if 1 < g.2.length then
      { g.1 with group_count := some (g.2.length : Int),
                 group_screenshot_ids := some g.2 }
    else g.1)

/-- `Database::deduplicate_results` (db.rs:1042-1099). Empty input or a zero
threshold short-circuit to the input unchanged. -/
def deduplicate_results (hashOf : Int → Option (List Nat))
    (results : List SearchResult) (threshold : Nat) : List SearchResult :=
  if results.isEmpty || threshold == 0 then results
  else buildDeduped (dedupGroups hashOf threshold results)

/-! ## db.rs — deduplicated FTS search (`search_deduped`) -/

/-- `SearchResponse` (schema.rs:99-104). -/
structure SearchResponse where
  results : List SearchResult
  total_count : Int
  search_mode : Option (List Char)
  deriving DecidableEq, Repr

/-- `Database::search_deduped` (db.rs:392-483). The SQL layer is modelled by
its outputs: `ftsMatches` is the full list of rows matching the FTS query
plus time/app filters, ordered by FTS rank (the `SELECT ... ORDER BY rank`
without `LIMIT`/`OFFSET`), from which `LIMIT`/`OFFSET` take a contiguous
slice; `search_count` (db.rs:1159-1181) counts the same `WHERE`, i.e.
`ftsMatches.length`. `limit`/`offset` are the caller-supplied page
parameters (non-negative in every caller; the IPC default is 50/0). -/
def search_deduped (hashOf : Int → Option (List Nat))
    (ftsMatches : List SearchResult) (limit offset : Nat)
    (dedup_threshold : Nat) : SearchResponse :=
  let total_count : Int := ftsMatches.length
  let overfetch_limit := if dedup_threshold > 0 then min (limit * 3) 300 else limit
  let overfetch_offset := if dedup_threshold > 0 then 0 else offset
  let results := (ftsMatches.drop overfetch_offset).take overfetch_limit
  if dedup_threshold > 0 then
    let deduped := deduplicate_results hashOf results dedup_threshold
    let deduped_total : Int := deduped.length
    let start := offset
    let stop := min (start + limit) deduped.length
    let paged := if start < deduped.length then (deduped.drop start).take (stop - start)
                 else []
    ⟨paged, deduped_total, some "keyword".toList⟩
  else
    ⟨results, total_count, some "keyword".toList⟩

/-- `DEDUP_THRESHOLD` (db.rs:19). -/
def DEDUP_THRESHOLD : Nat := 5

/-- `Database::search` (db.rs:387-389): `search_deduped` at the default scene
dedup threshold. -/
def search (hashOf : Int → Option (List Nat)) (ftsMatches : List SearchResult)
    (limit offset : Nat) : SearchResponse :=
  search_deduped hashOf ftsMatches limit offset DEDUP_THRESHOLD

/-- The union of the pages returned by `search_deduped` at offsets
`0, L, 2L, ...` for page size `L`. Every page is a slice of one fixed
deduplicated list (`search_deduped_results_slice` below), pages whose offset
is at or beyond that list are empty, and that list is never longer than
`ftsMatches`, so the pages with `k ≤ ftsMatches.length` already exhaust the
infinite union. -/
def allPagesUnion (hashOf : Int → Option (List Nat))
    (ftsMatches : List SearchResult) (L t : Nat) : List SearchResult :=
  (List.range (ftsMatches.length + 1)).flatMap
    (fun k => (search_deduped hashOf ftsMatches L (k * L) t).results)

/-! ## db.rs — SQL statement sequences and transactions

`insert_ocr_text` (db.rs:100-114) and the two delete functions
(db.rs:297-339) are sequences of SQL statements; `insert_ocr_text` brackets
its statements in `unchecked_transaction()` ... `commit()`, the deletes do
not. We model a database as its four row tables, a program as a list of
statement-level operations, and execution with an optional failing statement
index: statements before the failure apply, the failing statement does not,
and a transaction that is still open when a failure occurs is rolled back
(rusqlite drops the uncommitted `Transaction`). -/

/-- A `screenshots` row (the columns of `schema.rs::Screenshot`; `id` is the
rowid, `created_at` the DB-defaulted text column). -/
structure ScreenshotRow where
  id : Int
  timestamp : Int
  timestamp_ms : Int
  app_name : Option (List Char)
  window_title : Option (List Char)
  window_class : Option (List Char)
  file_path : List Char
  thumbnail_path : Option (List Char)
  width : Int
  height : Int
  file_size_bytes : Int
  perceptual_hash : List Nat
  ocr_status : List Char
  created_at : List Char
  deriving DecidableEq, Repr

/-- An `ocr_text_content` row (without its autoincrement id, which nothing
here reads). -/
structure OcrTextRow where
  screenshot_id : Int
  text_content : List Char
  word_count : Int
  deriving DecidableEq, Repr

/-- An `ocr_fts` shadow row. -/
structure FtsRow where
  text_content : List Char
  screenshot_id : Int
  deriving DecidableEq, Repr

/-- An `ocr_bounding_boxes` row (without its autoincrement id). -/
structure BoxRow where
  screenshot_id : Int
  text_content : List Char
  x : Int
  y : Int
  width : Int
  height : Int
  confidence : Option ℚ
  deriving DecidableEq, Repr

/-- The tables the modelled statements touch. -/
structure DbState where
  screenshots : List ScreenshotRow
  ocr_text_content : List OcrTextRow
  ocr_bounding_boxes : List BoxRow
  ocr_fts : List FtsRow
  deriving DecidableEq, Repr

/-- A statement-level SQL operation: begin an explicit transaction, commit
it, or run a single (auto-committing when outside a transaction) statement. -/
inductive SqlOp where
  | beginTx : SqlOp
  | commitTx : SqlOp
  | stmt : (DbState → DbState) → SqlOp

/-- Whether an operation opens an explicit transaction. -/
def SqlOp.isBeginTx : SqlOp → Bool
  | .beginTx => true
  | _ => false

/-- Run a statement list against `committed`, failing at statement index
`fail?` (counting every op; `none` = no failure). Inside an open transaction
writes go to the buffer; `commitTx` publishes the buffer; a failure — or the
end of the program — while a transaction is open discards the buffer. -/
def runSqlGo : List SqlOp → Option Nat → DbState → Option DbState → DbState
  | [], _, committed, _ => committed
  | _ :: _, some 0, committed, _ => committed
  | op :: rest, fail?, committed, buf =>
    let fail' := fail?.map (· - 1)
    match op with
    | .beginTx => runSqlGo rest fail' committed (some committed)
    | .commitTx =>
      match buf with
      | some b => runSqlGo rest fail' b none
      | none => runSqlGo rest fail' committed none
    | .stmt f =>
      match buf with
      | some b => runSqlGo rest fail' committed (some (f b))
      | none => runSqlGo rest fail' (f committed) none

/-- Entry point: run a program with no transaction open. -/
def runSql (prog : List SqlOp) (fail? : Option Nat) (st : DbState) : DbState :=
  runSqlGo prog fail? st none

/-- `Database::insert_ocr_text` (db.rs:100-114): inside
`unchecked_transaction`, insert the `ocr_text_content` row, insert the
`ocr_fts` shadow row, commit. -/
def insert_ocr_text_prog (screenshot_id : Int) (text : List Char)
    (word_count : Int) : List SqlOp :=
  [SqlOp.beginTx,
   SqlOp.stmt (fun db =>
     { db with ocr_text_content :=
         db.ocr_text_content ++ [⟨screenshot_id, text, word_count⟩] }),
   SqlOp.stmt (fun db =>
     { db with ocr_fts := db.ocr_fts ++ [⟨text, screenshot_id⟩] }),
   SqlOp.commitTx]

/-- The state `insert_ocr_text` commits on success: both rows appended. -/
def insertOcrBoth (screenshot_id : Int) (text : List Char) (word_count : Int)
    (db : DbState) : DbState :=
  { db with
    ocr_text_content := db.ocr_text_content ++ [⟨screenshot_id, text, word_count⟩],
    ocr_fts := db.ocr_fts ++ [⟨text, screenshot_id⟩] }

/-- `DELETE FROM ocr_fts WHERE screenshot_id IN (SELECT id FROM screenshots
WHERE <pred>)`: removes the FTS rows whose screenshot currently matches
`pred` (db.rs:305-309, 327-331). -/
def deleteFtsFor (pred : ScreenshotRow → Bool) (db : DbState) : DbState :=
  { db with ocr_fts := db.ocr_fts.filter (fun f =>
      !(db.screenshots.any (fun s => pred s && s.id == f.screenshot_id))) }

/-- `DELETE FROM screenshots WHERE <pred>` with the schema's
`ON DELETE CASCADE` foreign keys (the migrations are not among the provided
sources; per the spec, "Foreign keys cascade from `screenshots` to
dependents", so deleting a screenshot also deletes its `ocr_text_content`
and `ocr_bounding_boxes` rows — and not its `ocr_fts` row, which is not
foreign-key bound). -/
def deleteScreenshotsFor (pred : ScreenshotRow → Bool) (db : DbState) : DbState :=
  { db with
    screenshots := db.screenshots.filter (fun s => !pred s),
    ocr_text_content := db.ocr_text_content.filter (fun o =>
      !(db.screenshots.any (fun s => pred s && s.id == o.screenshot_id))),
    ocr_bounding_boxes := db.ocr_bounding_boxes.filter (fun b =>
      !(db.screenshots.any (fun s => pred s && s.id == b.screenshot_id))) }

/-- The row predicate of `delete_screenshots_before(timestamp)`:
`timestamp < ?1` (db.rs:300, 307, 311). -/
def beforePred (timestamp : Int) (s : ScreenshotRow) : Bool :=
  s.timestamp < timestamp

/-- The row predicate of `delete_screenshots_in_range(start, end)`:
`timestamp >= ?1 AND timestamp < ?2` (db.rs:323, 329, 333). -/
def rangePred (start stop : Int) (s : ScreenshotRow) : Bool :=
  start ≤ s.timestamp && s.timestamp < stop

/-- `Database::delete_screenshots_before` (db.rs:297-317) as its SQL
statement sequence: the path-collecting `SELECT` (db.rs:299-302) reads no
state and the trailing best-effort `remove_files` (db.rs:315) touches only
the filesystem, so the database-visible program is exactly two statements —
delete the FTS rows of the matched set, then delete the matched
`screenshots` rows (cascading). There is no `beginTx`/`commitTx`: the two
statements auto-commit individually. -/
def delete_screenshots_before_prog (timestamp : Int) : List SqlOp :=
  [SqlOp.stmt (deleteFtsFor (beforePred timestamp)),
   SqlOp.stmt (deleteScreenshotsFor (beforePred timestamp))]

/-- `Database::delete_screenshots_in_range` (db.rs:321-339), same shape with
the `[start, end)` predicate. -/
def delete_screenshots_in_range_prog (start stop : Int) : List SqlOp :=
  [SqlOp.stmt (deleteFtsFor (rangePred start stop)),
   SqlOp.stmt (deleteScreenshotsFor (rangePred start stop))]

/-! ## db.rs — active blocks -/

/-- `ActiveBlock` (schema.rs:198-202). -/
structure ActiveBlock where
  start_time : Int
  end_time : Int
  duration_secs : Int
  deriving DecidableEq, Repr

/-- The walking loop of `get_active_blocks` (db.rs:956-978), with
`block_start`/`block_end` as in the Rust code: a gap of more than 60 seconds
closes the current block; the final block is always closed at the end. -/
def activeBlocksGo (ci : Int) (block_start block_end : Int) :
    List Int → List ActiveBlock
  | [] => [⟨block_start, block_end + ci, block_end - block_start + ci⟩]
  | ts :: rest =>
    if ts - block_end > 60 then
      ⟨block_start, block_end + ci, block_end - block_start + ci⟩ ::
        activeBlocksGo ci ts ts rest
    else
      activeBlocksGo ci block_start ts rest

/-- The timestamps `get_active_blocks` walks: `SELECT timestamp FROM
screenshots WHERE timestamp >= ?1 AND timestamp < ?2 ORDER BY timestamp ASC`
(db.rs:942-950), modelled over the multiset `allTs` of stored timestamps. -/
def selectedTimestamps (allTs : List Int) (start stop : Int) : List Int :=
  (allTs.filter (fun t => start ≤ t && t < stop)).insertionSort (· ≤ ·)

/-- `Database::get_active_blocks` (db.rs:936-981): an empty selection yields
no blocks; otherwise walk from the first timestamp. -/
def get_active_blocks (allTs : List Int) (start stop : Int) (ci : Int) :
    List ActiveBlock :=
  match selectedTimestamps allTs start stop with
  | [] => []
  | t :: rest => activeBlocksGo ci t t rest

/-! ## ocr.rs — tesseract TSV parsing

Rust strings are modelled as `List Char`. The `f32` confidence is modelled
as an exact rational: `"<digits>[.<digits>][eE[±]<digits>]"` (optionally
signed) parses to the rational it denotes, anything else — including the
IEEE `inf`/`NaN` spellings, which tesseract never emits in the `conf`
column — fails to parse and falls back to `-1.0` via `unwrap_or`. -/

/-- Rust `str::split(c)`: the fragments between occurrences of `c`
(`n` separators give `n + 1` fragments, empty ones included). -/
def splitOnChar (c : Char) : List Char → List (List Char)
  | [] => [[]]
  | x :: xs =>
    let rest := splitOnChar c xs
    if x = c then [] :: rest
    else
      match rest with
      | [] => [[x]]
      | r :: rs => (x :: r) :: rs

/-- Rust `str::lines()`: split on `'\n'`, drop the trailing empty fragment a
final newline produces, and strip one trailing `'\r'` from each line. -/
def rustLines (s : List Char) : List (List Char) :=
  let ps := splitOnChar '\n' s
  let ps := if ps.getLast? = some [] then ps.dropLast else ps
  ps.map (fun l => if l.getLast? = some '\r' then l.dropLast else l)

/-- Rust `str::trim()` (ASCII whitespace suffices for TSV fields: tabs and
newlines cannot survive the field/line splits, so only spaces and stray
carriage returns matter). -/
def rustTrim (l : List Char) : List Char :=
  ((l.dropWhile Char.isWhitespace).reverse.dropWhile Char.isWhitespace).reverse

/-- The value of a digit run. -/
def digitsToNat (l : List Char) : Nat :=
  l.foldl (fun acc c => acc * 10 + (c.toNat - '0'.toNat)) 0

/-- A non-empty all-digit run, or `none`. -/
def parseDigits (l : List Char) : Option Nat :=
  if l ≠ [] ∧ l.all Char.isDigit then some (digitsToNat l) else none

/-- Rust `str::parse::<i32>()`: optional sign, one or more digits, nothing
else, and the value must fit in `i32`. -/
def parseI32 (s : List Char) : Option Int :=
  let (sign, ds) : Int × List Char :=
    match s with
    | '+' :: rest => (1, rest)
    | '-' :: rest => (-1, rest)
    | _ => (1, s)
  match parseDigits ds with
  | some n =>
    let v : Int := sign * n
    if -2147483648 ≤ v ∧ v ≤ 2147483647 then some v else none
  | none => none

/-- Rust `str::parse::<f32>()` on a finite decimal, as an exact rational:
optional sign, then `digits`, `digits.`, `digits.digits` or `.digits`,
then an optional `e`/`E` exponent. Other inputs (including `inf`/`NaN`)
are modelled as parse failures. -/
def parseF32AsRat (s : List Char) : Option ℚ :=
  let (neg, cs) : Bool × List Char :=
    match s with
    | '+' :: rest => (false, rest)
    | '-' :: rest => (true, rest)
    | _ => (false, s)
  let ip := cs.takeWhile Char.isDigit
  let rest := cs.dropWhile Char.isDigit
  let (fp, rest2) : List Char × List Char :=
    match rest with
    | '.' :: r => (r.takeWhile Char.isDigit, r.dropWhile Char.isDigit)
    | _ => ([], rest)
  let hasDot : Bool := match rest with | '.' :: _ => true | _ => false
  if ip = [] ∧ (¬ hasDot ∨ fp = []) then none
  else
    let mag : Nat := digitsToNat ip * 10 ^ fp.length + digitsToNat fp
    let num : Int := if neg then -(mag : Int) else (mag : Int)
    match rest2 with
    | [] => some (mkRat num (10 ^ fp.length))
    | e :: r3 =>
      if e = 'e' ∨ e = 'E' then
        let (eneg, r4) : Bool × List Char :=
          match r3 with
          | '+' :: r => (false, r)
          | '-' :: r => (true, r)
          | _ => (false, r3)
        match parseDigits r4 with
        | some ex =>
          some (if eneg then mkRat num (10 ^ fp.length * 10 ^ ex)
                else mkRat (num * ((10 ^ ex : Nat) : Int)) (10 ^ fp.length))
        | none => none
      else none

/-- `NewBoundingBox` (schema.rs:62-69); `confidence` is the word confidence
as stored (`Some(confidence as f64)`). -/
structure NewBoundingBox where
  text_content : List Char
  x : Int
  y : Int
  width : Int
  height : Int
  confidence : Option ℚ
  deriving DecidableEq, Repr

/-- `TesseractOutput` (ocr.rs:12-16). -/
structure TesseractOutput where
  full_text : List Char
  bounding_boxes : List NewBoundingBox
  word_count : Int
  deriving DecidableEq, Repr

/-- `MIN_CONFIDENCE` (ocr.rs:19). -/
def MIN_CONFIDENCE : ℚ := 30

/-- The loop state of `parse_tsv_output` (ocr.rs:73-76). -/
structure TsvParseState where
  full_text_parts : List (List Char)
  bounding_boxes : List NewBoundingBox
  current_line_num : Int
  word_count : Int

/-- One iteration of the row loop of `parse_tsv_output` (ocr.rs:78-125):
skip short rows, rows whose level does not parse, non-word (level ≠ 5) rows,
and words that are empty after trimming or have confidence below 30; a kept
word may first push a `"\n"` marker (when a word was seen before,
`line_num` changed, and parts is non-empty), then pushes its text, counts
itself and records its bounding box. -/
def parseTsvRow (st : TsvParseState) (line : List Char) : TsvParseState :=
  let fields := splitOnChar '\t' line
  if fields.length < 12 then st
  else
    match parseI32 (fields.getD 0 []) with
    | none => st
    | some level =>
      if level ≠ 5 then st
      else
        let confidence : ℚ := (parseF32AsRat (fields.getD 10 [])).getD (-1)
        let text := rustTrim (fields.getD 11 [])
        if text = [] ∨ confidence < MIN_CONFIDENCE then st
        else
          let line_num : Int := (parseI32 (fields.getD 4 [])).getD 0
          let parts :=
            if 0 ≤ st.current_line_num ∧ line_num ≠ st.current_line_num ∧
               st.full_text_parts ≠ [] then
              st.full_text_parts ++ [['\n']]
            else st.full_text_parts
          let left : Int := (parseI32 (fields.getD 6 [])).getD 0
          let top : Int := (parseI32 (fields.getD 7 [])).getD 0
          let width : Int := (parseI32 (fields.getD 8 [])).getD 0
          let height : Int := (parseI32 (fields.getD 9 [])).getD 0
          { full_text_parts := parts ++ [text],
            bounding_boxes := st.bounding_boxes ++
              [⟨text, left, top, width, height, some confidence⟩],
            current_line_num := line_num,
            word_count := st.word_count + 1 }

/-- One iteration of the `join_words` loop (ocr.rs:145-155): the
accumulator is the running result string and the part index `i`; a `"\n"`
marker pushes a newline; a word is preceded by a space unless it is first,
the result is still empty, or the result ends with a newline. -/
def joinStep (acc : List Char × Nat) (part : List Char) : List Char × Nat :=
  if part = ['\n'] then (acc.1 ++ ['\n'], acc.2 + 1)
  else
    let r := if acc.2 > 0 ∧ acc.1 ≠ [] ∧ acc.1.getLast? ≠ some '\n' then
               acc.1 ++ [' ']
             else acc.1
    (r ++ part, acc.2 + 1)

/-- `join_words` (ocr.rs:143-157). -/
def join_words (parts : List (List Char)) : List Char :=
  (parts.foldl joinStep ([], 0)).1

/-- `parse_tsv_output` (ocr.rs:72-140): skip the TSV header line, fold the
row loop, join the collected parts. (The Rust function returns
`Result<_, _>` but has no error path.) -/
def parse_tsv_output (tsv : List Char) : TesseractOutput :=
  let st := ((rustLines tsv).drop 1).foldl parseTsvRow ⟨[], [], -1, 0⟩
  ⟨join_words st.full_text_parts, st.bounding_boxes, st.word_count⟩

/-! ## pipeline.rs — capture and hash stage metrics

The capture stage (pipeline.rs:177-200) increments `frames_captured` for
every frame the capture manager emits, then sends it downstream; the hash
stage (pipeline.rs:204-348) decodes, hashes, dedups against
`get_recent_hashes(now - 30, 10)`, saves and inserts. Per-frame external
effects are oracles carried on the frame: `hash` is what
`hasher.hash_image` would return, `saveOk`/`fileSize` what the WebP saves
would do. The two stages are sequentialised frame by frame (bounded MPSC
channels allow this interleaving; the counters and row counts the claims
compare are totals over a completed run). -/

/-- A captured frame together with its external-effect oracles. -/
structure FrameIn where
  timestamp_ms : Int
  pixelsLen : Nat
  width : Nat
  height : Nat
  hash : List Nat
  saveOk : Bool
  deriving DecidableEq, Repr

/-- Pipeline metrics (pipeline.rs:20-25) plus the `screenshots` rows the
hash stage has inserted, as `(timestamp, perceptual_hash)` pairs in
insertion order. -/
structure PipelineState where
  frames_captured : Nat
  frames_deduplicated : Nat
  frames_ocr_pending : Nat
  rows : List (Int × List Nat)
  deriving DecidableEq, Repr

/-- `Database::get_recent_hashes` (db.rs:272-293): `WHERE timestamp > ?1
ORDER BY timestamp DESC LIMIT ?2`. The pairs it returns are `(id, hash)`;
`is_duplicate` ignores the first component, which we reuse to carry the
timestamp that orders the rows. -/
def get_recent_hashes (rows : List (Int × List Nat)) (since : Int)
    (limit : Nat) : List (Int × List Nat) :=
  ((rows.filter (fun r => since < r.1)).insertionSort (fun a b => b.1 ≤ a.1)).take limit

/-- The hash stage body for one received frame (pipeline.rs:219-345):
`image_from_rgba` fails when the pixel buffer is smaller than
`width*height*4` (`RgbaImage::from_raw`'s bounds check) and the frame is
dropped; a duplicate (within hamming `threshold` of a hash stored in the
last 30 seconds, 10 most recent) bumps `frames_deduplicated` and is dropped;
a failed save is dropped; otherwise the row is inserted and
`frames_ocr_pending` bumped. `timestamp_ms / 1000` uses Rust's truncating
`i64` division (`Int.tdiv`). -/
def hashStageStep (threshold : Nat) (st : PipelineState) (f : FrameIn) :
    PipelineState :=
  if f.pixelsLen < f.width * f.height * 4 then st
  else
    let timestamp_secs := Int.tdiv f.timestamp_ms 1000
    let recent := get_recent_hashes st.rows (timestamp_secs - 30) 10
    if is_duplicate f.hash recent threshold then
      { st with frames_deduplicated := st.frames_deduplicated + 1 }
    else if !f.saveOk then st
    else
      { st with
        rows := st.rows ++ [(timestamp_secs, f.hash)],
        frames_ocr_pending := st.frames_ocr_pending + 1 }

/-- One frame's trip through capture then hash stage: `frames_captured` is
incremented by the capture stage as soon as the frame is emitted
(pipeline.rs:188), before the hash stage sees it. -/
def pipelineStep (threshold : Nat) (st : PipelineState) (f : FrameIn) :
    PipelineState :=
  hashStageStep threshold
    { st with frames_captured := st.frames_captured + 1 } f

/-- Capture stage followed by hash stage for each frame in emission order,
from the zeroed metrics (pipeline.rs:28-35). -/
def runPipeline (threshold : Nat) (frames : List FrameIn) : PipelineState :=
  frames.foldl (pipelineStep threshold) ⟨0, 0, 0, []⟩

/-! ## service.rs — Pause / Resume -/

/-- `DaemonService::pause` (service.rs:40-49) acting on the shared
`is_capturing` flag: returns the D-Bus reply and the new flag value. -/
def pause (is_capturing : Bool) : Except (List Char) Unit × Bool :=
  if !is_capturing then (Except.error "not capturing".toList, is_capturing)
  else (Except.ok (), false)

/-- `DaemonService::resume` (service.rs:51-60). -/
def resume (is_capturing : Bool) : Except (List Char) Unit × Bool :=
  if is_capturing then (Except.error "already capturing".toList, is_capturing)
  else (Except.ok (), true)

/-- Whether candidate id `a` would be assigned to a group represented by id
`b`: both ids have stored hashes and they are within `t`. This is the exact
condition under which `deduplicate_results`' inner loop matches a group. -/
def matchB (hashOf : Int → Option (List Nat)) (t : Nat) (a b : Int) : Bool :=
  match hashOf a, hashOf b with
  | some ha, some hb => hamming_distance ha hb ≤ t
  | _, _ => false

/-! ## Specification-side definitions

These follow the spec's words (not the code) and are compared with the
embedded code above. -/

/-- Spec §4.1 "Scene deduplication", step 2, verbatim as an assignment walk:
"compute Hamming distance to the representative of every existing group;
assign to the first group with distance ≤ `DEDUP_THRESHOLD`", with the
distance of a candidate/representative pair taken on their stored hashes
(`u32::MAX`, i.e. never within a sane threshold, when a hash is absent). -/
def specDist (hashOf : Int → Option (List Nat)) (a b : Int) : Nat :=
  match hashOf a, hashOf b with
  | some x, some y => hamming_distance x y
  | _, _ => u32MAX

/-- Spec-side assignment walk: first group whose representative is within
`threshold` of the candidate. -/
def specAssign (hashOf : Int → Option (List Nat)) (threshold : Nat)
    (rid : Int) : List DedupGroup → Option (List DedupGroup)
  | [] => none
  | g :: gs =>
    if specDist hashOf rid g.1.id ≤ threshold then
      some ((g.1, g.2 ++ [rid]) :: gs)
    else (specAssign hashOf threshold rid gs).map (g :: ·)

/-- Spec-side candidate step: join the first matching group, else start a
new one. -/
def specDedupInsert (hashOf : Int → Option (List Nat)) (threshold : Nat)
    (groups : List DedupGroup) (r : SearchResult) : List DedupGroup :=
  match specAssign hashOf threshold r.id groups with
  | some gs => gs
  | none => groups ++ [(r, [r.id])]

/-- Spec §4.1 "Scene deduplication", steps 1-3, as a function: iterate
candidates in rank order, assign each to the first group within threshold or
start a new group, and emit each group's top-ranked member (with
`group_count`/`group_screenshot_ids` on groups of size > 1). -/
def specDeduplicate (hashOf : Int → Option (List Nat))
    (results : List SearchResult) (threshold : Nat) : List SearchResult :=
  if results.isEmpty || threshold == 0 then results
  else buildDeduped (results.foldl (specDedupInsert hashOf threshold) [])

/-- Spec §4.1 "Active blocks" / §8.10: the walk that groups sorted
timestamps into maximal runs whose consecutive gaps are ≤ 60 seconds
(a gap > 60 closes the run). `cur` is the open run (never empty), `last`
its last element. -/
def gapSplitGo (cur : List Int) (last : Int) : List Int → List (List Int)
  | [] => [cur]
  | t :: rest =>
    if t - last > 60 then cur :: gapSplitGo [t] t rest
    else gapSplitGo (cur ++ [t]) t rest

/-- Partition of a timestamp list into gap-≤-60 runs. -/
def gapSplit : List Int → List (List Int)
  | [] => []
  | t :: rest => gapSplitGo [t] t rest

/-- The block a run denotes, per spec §8.10: `end_time` = last +
`capture_interval_secs`, `duration_secs` = last − first +
`capture_interval_secs`. -/
def mkBlock (ci : Int) (run : List Int) : ActiveBlock :=
  ⟨run.headD 0, run.getLastD 0 + ci, run.getLastD 0 - run.headD 0 + ci⟩

/-- Spec §4.6: the accepted words of a TSV, one per level-5 row with
non-empty (trimmed) text and confidence ≥ 30, paired with the row's parsed
line index and bounding box. Field handling is identical to
`parseTsvRow`'s. -/
def acceptRow (line : List Char) : Option (List Char × Int × NewBoundingBox) :=
  let fields := splitOnChar '\t' line
  if fields.length < 12 then none
  else
    match parseI32 (fields.getD 0 []) with
    | none => none
    | some level =>
      if level ≠ 5 then none
      else
        let confidence : ℚ := (parseF32AsRat (fields.getD 10 [])).getD (-1)
        let text := rustTrim (fields.getD 11 [])
        if text = [] ∨ confidence < MIN_CONFIDENCE then none
        else
          let line_num : Int := (parseI32 (fields.getD 4 [])).getD 0
          let left : Int := (parseI32 (fields.getD 6 [])).getD 0
          let top : Int := (parseI32 (fields.getD 7 [])).getD 0
          let width : Int := (parseI32 (fields.getD 8 [])).getD 0
          let height : Int := (parseI32 (fields.getD 9 [])).getD 0
          some (text, line_num, ⟨text, left, top, width, height, some confidence⟩)

/-- The accepted words of a TSV input, in row order. -/
def acceptedWords (tsv : List Char) : List (List Char × Int × NewBoundingBox) :=
  ((rustLines tsv).drop 1).filterMap acceptRow

/-- Spec §4.6: join accepted words with single spaces, inserting a newline
instead exactly when the line index changes between consecutive accepted
words. -/
def specJoinGo (acc : List Char) (prev : Int) :
    List (List Char × Int) → List Char
  | [] => acc
  | (t, l) :: rest =>
    specJoinGo (acc ++ (if l ≠ prev then ['\n'] else [' ']) ++ t) l rest

/-- Spec-side full text of a list of accepted `(text, line)` words. -/
def specJoin : List (List Char × Int) → List Char
  | [] => []
  | (t, l) :: rest => specJoinGo t l rest

/-- Spec-side parse result: spec-joined full text, the accepted words'
boxes, and their count. -/
def specParseTsv (tsv : List Char) : TesseractOutput :=
  let ws := acceptedWords tsv
  ⟨specJoin (ws.map (fun w => (w.1, w.2.1))), ws.map (fun w => w.2.2),
   (ws.length : Int)⟩

/-- The `(text, line)` pairs of a list of accepted words. -/
def pairsOf (ws : List (List Char × Int × NewBoundingBox)) :
    List (List Char × Int) :=
  ws.map (fun w => (w.1, w.2.1))

/-- The line index of the last accepted word, `-1` when none (the initial
value of `current_line_num`, ocr.rs:75). -/
def lastLineP (ps : List (List Char × Int)) : Int :=
  ((ps.getLast?).map (fun p => p.2)).getD (-1)

/-- The `full_text_parts` the row loop accumulates for the accepted words
after the first: each word preceded by a `"\n"` marker iff its line index
differs from the previous word's. -/
def renderPartsGo (prev : Int) : List (List Char × Int) → List (List Char)
  | [] => []
  | (t, l) :: rest =>
    (if l ≠ prev then [['\n']] else []) ++ t :: renderPartsGo l rest

/-- The `full_text_parts` the row loop accumulates for a list of accepted
words. -/
def renderParts : List (List Char × Int) → List (List Char)
  | [] => []
  | (t, l) :: rest => t :: renderPartsGo l rest

/-- The loop state of `parse_tsv_output` after accepting the words `ws`. -/
def stateOf (ws : List (List Char × Int × NewBoundingBox)) : TsvParseState :=
  ⟨renderParts (pairsOf ws), ws.map (fun w => w.2.2), lastLineP (pairsOf ws),
   (ws.length : Int)⟩

/-! ## Concrete fixtures used by witnesses and counterexamples -/

/-- A minimal search result with the given id (rank set to the id so the
list order is the rank order; the dedup code never reads it). -/
def mkResult (i : Int) : SearchResult :=
  ⟨i, 0, none, none, none, [], [], (i : ℚ), none, none⟩

/-- Four pairwise very different 8-byte hashes (pairwise hamming distance
≥ 32). -/
def hashA : List Nat := [0, 0, 0, 0, 0, 0, 0, 0]

/-- See `hashA`. -/
def hashB : List Nat := [255, 255, 255, 255, 0, 0, 0, 0]

/-- See `hashA`. -/
def hashC : List Nat := [0, 0, 0, 0, 255, 255, 255, 255]

/-- See `hashA`. -/
def hashD : List Nat := [255, 255, 255, 255, 255, 255, 255, 255]

/-- Stored hashes for ids 1..4: pairwise farther apart than the default
threshold 5, so scene dedup keeps all four distinct. -/
def distinctHashOf : Int → Option (List Nat) := fun i =>
  if i = 1 then some hashA
  else if i = 2 then some hashB
  else if i = 3 then some hashC
  else if i = 4 then some hashD
  else none

/-- Stored hashes where every id shares the same valid hash. -/
def uniformHashOf : Int → Option (List Nat) := fun _ => some hashA

/-- Stored hashes where id 5 has an invalid-length (3-byte) hash and every
other id has a valid one. -/
def shortHashOf : Int → Option (List Nat) := fun i =>
  if i = 5 then some [0, 0, 0] else some hashA

/-- A database with one screenshot (id 1, timestamp 5) together with its OCR
text row and FTS shadow row. -/
def deleteCexDb : DbState :=
  { screenshots := [⟨1, 5, 5000, none, none, none, "f.webp".toList, none,
      1, 1, 1, [0, 0, 0, 0, 0, 0, 0, 0], "done".toList, "t".toList⟩],
    ocr_text_content := [⟨1, "hello".toList, 1⟩],
    ocr_bounding_boxes := [],
    ocr_fts := [⟨"hello".toList, 1⟩] }

/-- A 1×1 frame whose oracles all succeed: enough pixels, a fixed hash,
saves succeed. Two of these 0 ms apart make the second a duplicate. -/
def dupFrame : FrameIn := ⟨1000000, 4, 1, 1, hashA, true⟩

/-- A TSV input with two high-confidence words on lines -1 and 2: the
parsed line index of the first accepted word is negative, so the
`current_line_num >= 0` guard (ocr.rs:104) suppresses the newline that the
line-index change would otherwise insert. -/
def negLineTsv : List Char :=
  ("level\tpage_num\tblock_num\tpar_num\tline_num\tword_num\tleft\ttop\twidth\theight\tconf\ttext\n"
    ++ "5\t1\t1\t1\t-1\t1\t0\t0\t10\t10\t90\tA\n"
    ++ "5\t1\t1\t1\t2\t2\t0\t0\t10\t10\t90\tB").toList

/-- A well-formed TSV input: two words on line 1, one on line 2, one
low-confidence word and one empty-text word that must be skipped. -/
def sampleTsv : List Char :=
  ("level\tpage_num\tblock_num\tpar_num\tline_num\tword_num\tleft\ttop\twidth\theight\tconf\ttext\n"
    ++ "5\t1\t1\t1\t1\t1\t100\t50\t80\t20\t96.5\tHi\n"
    ++ "5\t1\t1\t1\t1\t2\t190\t50\t90\t20\t94\tthere\n"
    ++ "5\t1\t1\t1\t1\t3\t290\t50\t10\t20\t12.5\tnoise\n"
    ++ "5\t1\t1\t1\t2\t1\t100\t80\t60\t20\t88\tok\n"
    ++ "5\t1\t1\t1\t2\t2\t170\t80\t0\t20\t91\t ").toList

/-! # Theorems -/

/-! ## C9 — Pause / Resume -/

/-- C9: the IPC `Pause` method errors iff `is_capturing` is already false
and on success sets it to false; `Resume` errors iff it is already true and
on success sets it to true; in each error case the flag is unchanged. All
four cases of `pause`/`resume` on the two flag values. -/
theorem pause_resume_spec :
    pause true = (Except.ok (), false) ∧
    pause false = (Except.error "not capturing".toList, false) ∧
    resume false = (Except.ok (), true) ∧
    resume true = (Except.error "already capturing".toList, true) :=
  ⟨rfl, rfl, rfl, rfl⟩

/-! ## C2 — insert_ocr_text atomicity -/

/-- C2: for every database state, screenshot id, text and word count, and
every failure point, `insert_ocr_text` either leaves the database unchanged
(any failure before commit rolls the transaction back) or persists both the
`ocr_text_content` row and the `ocr_fts` shadow row with the same
`screenshot_id`; with no failure it persists both. -/
theorem insert_ocr_text_atomic (db : DbState) (sid : Int) (text : List Char)
    (wc : Int) (fail? : Option Nat) :
    (runSql (insert_ocr_text_prog sid text wc) fail? db = db ∨
     runSql (insert_ocr_text_prog sid text wc) fail? db =
       insertOcrBoth sid text wc db) ∧
    (fail? = none →
     runSql (insert_ocr_text_prog sid text wc) fail? db =
       insertOcrBoth sid text wc db) := by
  constructor
  · rcases fail? with _ | k
    · exact Or.inr rfl
    · match k with
      | 0 => exact Or.inl rfl
      | 1 => exact Or.inl rfl
      | 2 => exact Or.inl rfl
      | 3 => exact Or.inl rfl
      | (n + 4) => exact Or.inr rfl
  · rintro rfl
    rfl

/-- Witness for C2: on the empty database, a failure-free run and the run
failing at the FTS insert (statement index 2). -/
theorem insert_ocr_text_atomic_witness :
    runSql (insert_ocr_text_prog 7 "hi".toList 1) none ⟨[], [], [], []⟩ =
      insertOcrBoth 7 "hi".toList 1 ⟨[], [], [], []⟩ ∧
    (runSql (insert_ocr_text_prog 7 "hi".toList 1) (some 2) ⟨[], [], [], []⟩ =
       ⟨[], [], [], []⟩ ∨
     runSql (insert_ocr_text_prog 7 "hi".toList 1) (some 2) ⟨[], [], [], []⟩ =
       insertOcrBoth 7 "hi".toList 1 ⟨[], [], [], []⟩) :=
  ⟨(insert_ocr_text_atomic ⟨[], [], [], []⟩ 7 "hi".toList 1 none).2 rfl,
   (insert_ocr_text_atomic ⟨[], [], [], []⟩ 7 "hi".toList 1 (some 2)).1⟩

/-! ## C1 — delete_screenshots_before / _in_range and transactions -/

/-- C1 counterexample: the two delete functions contain no explicit
transaction (`beginTx` never occurs in their statement programs), and a
failure of the second statement of `delete_screenshots_before 10` on a
database whose single screenshot (timestamp 5) matches the cutoff leaves a
partial write: the FTS row is deleted while the screenshots row (and its
cascade set) remains — neither "both deleted" nor "neither deleted". -/
theorem delete_range_not_atomic_cex :
    ((delete_screenshots_before_prog 10).all (fun op => !op.isBeginTx)) = true ∧
    ((delete_screenshots_in_range_prog 0 10).all (fun op => !op.isBeginTx)) = true ∧
    runSql (delete_screenshots_before_prog 10) (some 1) deleteCexDb =
      { deleteCexDb with ocr_fts := [] } ∧
    ({ deleteCexDb with ocr_fts := [] } : DbState) ≠ deleteCexDb ∧
    ({ deleteCexDb with ocr_fts := [] } : DbState) ≠
      runSql (delete_screenshots_before_prog 10) none deleteCexDb := by
  refine ⟨rfl, rfl, rfl, by decide, by decide⟩

/-- C1 amended: the deletes run as two separately auto-committed statements
with the FTS delete first; every failure point leaves the database in one of
exactly three states — untouched, FTS rows of the matched set deleted with
the base rows intact, or both deleted — and a failure-free run deletes both.
In particular no reachable state has a matched base row deleted while its
FTS shadow row remains. -/
theorem delete_range_fts_first (ts start stop : Int) (db : DbState)
    (fail? : Option Nat) :
    (runSql (delete_screenshots_before_prog ts) fail? db = db ∨
     runSql (delete_screenshots_before_prog ts) fail? db =
       deleteFtsFor (beforePred ts) db ∨
     runSql (delete_screenshots_before_prog ts) fail? db =
       deleteScreenshotsFor (beforePred ts) (deleteFtsFor (beforePred ts) db)) ∧
    (fail? = none →
     runSql (delete_screenshots_before_prog ts) fail? db =
       deleteScreenshotsFor (beforePred ts) (deleteFtsFor (beforePred ts) db)) ∧
    (runSql (delete_screenshots_in_range_prog start stop) fail? db = db ∨
     runSql (delete_screenshots_in_range_prog start stop) fail? db =
       deleteFtsFor (rangePred start stop) db ∨
     runSql (delete_screenshots_in_range_prog start stop) fail? db =
       deleteScreenshotsFor (rangePred start stop)
         (deleteFtsFor (rangePred start stop) db)) ∧
    (fail? = none →
     runSql (delete_screenshots_in_range_prog start stop) fail? db =
       deleteScreenshotsFor (rangePred start stop)
         (deleteFtsFor (rangePred start stop) db)) := by
  refine ⟨?_, ?_, ?_, ?_⟩
  · rcases fail? with _ | k
    · exact Or.inr (Or.inr rfl)
    · match k with
      | 0 => exact Or.inl rfl
      | 1 => exact Or.inr (Or.inl rfl)
      | (n + 2) => exact Or.inr (Or.inr rfl)
  · rintro rfl
    rfl
  · rcases fail? with _ | k
    · exact Or.inr (Or.inr rfl)
    · match k with
      | 0 => exact Or.inl rfl
      | 1 => exact Or.inr (Or.inl rfl)
      | (n + 2) => exact Or.inr (Or.inr rfl)
  · rintro rfl
    rfl

/-- Witness for C1 amended: on `deleteCexDb` with no failure both deletes
apply. -/
theorem delete_range_fts_first_witness :
    runSql (delete_screenshots_before_prog 10) none deleteCexDb =
      deleteScreenshotsFor (beforePred 10) (deleteFtsFor (beforePred 10) deleteCexDb) ∧
    runSql (delete_screenshots_in_range_prog 0 10) none deleteCexDb =
      deleteScreenshotsFor (rangePred 0 10) (deleteFtsFor (rangePred 0 10) deleteCexDb) :=
  ⟨(delete_range_fts_first 10 0 10 deleteCexDb none).2.1 rfl,
   (delete_range_fts_first 10 0 10 deleteCexDb none).2.2.2 rfl⟩

/-! ## C3 — frames_captured and rows written -/

/-- C3 counterexample: two identical frames 0 ms apart; the hash stage
writes one row and dedups the second, yet `frames_captured` — incremented by
the capture stage on emission (pipeline.rs:188), before dedup — is 2, which
exceeds the number of rows written. -/
theorem frames_captured_overcounts_cex :
    (runPipeline 3 [dupFrame, dupFrame]).frames_captured = 2 ∧
    (runPipeline 3 [dupFrame, dupFrame]).rows.length = 1 ∧
    (runPipeline 3 [dupFrame, dupFrame]).frames_deduplicated = 1 ∧
    ¬ (runPipeline 3 [dupFrame, dupFrame]).frames_captured ≤
        (runPipeline 3 [dupFrame, dupFrame]).rows.length := by
  decide

/-- Per-frame accounting: one capture-stage increment, and at most one of a
row insert / a dedup bump in the hash stage. -/
theorem pipelineStep_accounting (threshold : Nat) (st : PipelineState)
    (f : FrameIn) :
    (pipelineStep threshold st f).frames_captured = st.frames_captured + 1 ∧
    (pipelineStep threshold st f).rows.length +
        (pipelineStep threshold st f).frames_deduplicated ≤
      st.rows.length + st.frames_deduplicated + 1 := by
  unfold pipelineStep hashStageStep
  dsimp only
  split_ifs <;>
    refine ⟨rfl, ?_⟩ <;>
      simp only [List.length_append, List.length_cons, List.length_nil] <;>
        omega

/-- The pipeline fold, generalised over the starting state. -/
theorem runPipeline_fold_accounting (threshold : Nat) (frames : List FrameIn) :
    ∀ st : PipelineState,
      (frames.foldl (pipelineStep threshold) st).frames_captured
        = st.frames_captured + frames.length ∧
      (frames.foldl (pipelineStep threshold) st).rows.length +
        (frames.foldl (pipelineStep threshold) st).frames_deduplicated
        ≤ st.rows.length + st.frames_deduplicated + frames.length := by
  induction frames with
  | nil =>
    intro st
    simp only [List.foldl_nil, List.length_nil]
    omega
  | cons f rest ih =>
    intro st
    have hstep := pipelineStep_accounting threshold st f
    have hrec := ih (pipelineStep threshold st f)
    simp only [List.foldl_cons, List.length_cons]
    constructor
    · rw [hrec.1, hstep.1]
      omega
    · have h2 := hrec.2
      have h3 := hstep.2
      omega

/-- C3 amended: `frames_captured` is incremented by the capture stage once
per emitted frame, before deduplication, so it equals the total number of
frames emitted; frames dropped by dedup (or by decode/save/insert failures)
are still counted, so rows written plus dedup drops never exceed — but may
be strictly less than, and rows written alone may be strictly exceeded by —
`frames_captured`. -/
theorem frames_captured_counts_emitted (threshold : Nat)
    (frames : List FrameIn) :
    (runPipeline threshold frames).frames_captured = frames.length ∧
    (runPipeline threshold frames).rows.length +
        (runPipeline threshold frames).frames_deduplicated ≤
      (runPipeline threshold frames).frames_captured := by
  have h := runPipeline_fold_accounting threshold frames ⟨0, 0, 0, []⟩
  have h1 := h.1
  have h2 := h.2
  simp only [runPipeline]
  dsimp only at h1 h2
  simp only [List.length_nil] at h2
  constructor
  · omega
  · omega

/-! ## C7 — active blocks -/

/-- Appending to a non-empty list keeps its head. -/
theorem headD_append_singleton (l : List Int) (t d : Int) (h : l ≠ []) :
    (l ++ [t]).headD d = l.headD d := by
  cases l with
  | nil => exact absurd rfl h
  | cons a as => rfl

/-- The code's block walk equals mapping `mkBlock` over the spec's gap
partition, for an open run `cur` whose first/last elements are the walk's
`block_start`/`block_end`. -/
theorem activeBlocksGo_eq_gapSplitGo (ci : Int) :
    ∀ (rest cur : List Int), cur ≠ [] →
      activeBlocksGo ci (cur.headD 0) (cur.getLastD 0) rest =
        (gapSplitGo cur (cur.getLastD 0) rest).map (mkBlock ci) := by
  intro rest
  induction rest with
  | nil => intro cur hcur; rfl
  | cons t rest ih =>
    intro cur hcur
    by_cases hgap : t - cur.getLastD 0 > 60
    · have h1 := ih [t] (by simp)
      have e1 : ([t] : List Int).getLastD 0 = t := rfl
      have e2 : ([t] : List Int).headD 0 = t := rfl
      rw [e1, e2] at h1
      simp only [activeBlocksGo, gapSplitGo, if_pos hgap, List.map_cons]
      rw [h1]
      rfl
    · have h1 := ih (cur ++ [t]) (by simp)
      rw [headD_append_singleton cur t 0 hcur, List.getLastD_concat] at h1
      simp only [activeBlocksGo, gapSplitGo, if_neg hgap]
      exact h1

/-- The gap partition concatenates back to the walked list. -/
theorem gapSplitGo_flatten :
    ∀ (rest cur : List Int) (last : Int),
      (gapSplitGo cur last rest).flatten = cur ++ rest := by
  intro rest
  induction rest with
  | nil => intro cur last; simp [gapSplitGo]
  | cons t rest ih =>
    intro cur last
    by_cases hgap : t - last > 60
    · simp [gapSplitGo, if_pos hgap, ih]
    · simp [gapSplitGo, if_neg hgap, ih]

/-- Within a run of the gap partition, consecutive timestamps differ by at
most 60 seconds. -/
theorem gapSplitGo_within :
    ∀ (rest cur : List Int) (last : Int), cur.getLast? = some last →
      List.Chain' (fun a b => b - a ≤ 60) cur →
      ∀ run ∈ gapSplitGo cur last rest, List.Chain' (fun a b => b - a ≤ 60) run := by
  intro rest
  induction rest with
  | nil =>
    intro cur last _ hchain run hrun
    simp only [gapSplitGo, List.mem_singleton] at hrun
    exact hrun ▸ hchain
  | cons t rest ih =>
    intro cur last hlast hchain run hrun
    by_cases hgap : t - last > 60
    · simp only [gapSplitGo, if_pos hgap, List.mem_cons] at hrun
      rcases hrun with rfl | hrun
      · exact hchain
      · exact ih [t] t rfl (List.chain'_singleton t) run hrun
    · simp only [gapSplitGo, if_neg hgap] at hrun
      refine ih (cur ++ [t]) t (List.getLast?_concat cur) ?_ run hrun
      refine List.chain'_append.mpr ⟨hchain, List.chain'_singleton t, ?_⟩
      intro x hx y hy
      simp only [List.head?_cons, Option.mem_def, Option.some.injEq] at hy
      rw [hlast] at hx
      simp only [Option.mem_def, Option.some.injEq] at hx
      subst hx
      subst hy
      omega

/-- The first run of the gap partition starts with the open run's head. -/
theorem gapSplitGo_head :
    ∀ (rest cur : List Int) (last : Int), cur ≠ [] →
      ∀ run ∈ (gapSplitGo cur last rest).head?, run.headD 0 = cur.headD 0 := by
  intro rest
  induction rest with
  | nil =>
    intro cur last _ run hrun
    simp only [gapSplitGo, List.head?_cons, Option.mem_def, Option.some.injEq] at hrun
    exact hrun ▸ rfl
  | cons t rest ih =>
    intro cur last hcur run hrun
    by_cases hgap : t - last > 60
    · simp only [gapSplitGo, if_pos hgap, List.head?_cons, Option.mem_def,
        Option.some.injEq] at hrun
      exact hrun ▸ rfl
    · simp only [gapSplitGo, if_neg hgap] at hrun
      have := ih (cur ++ [t]) t (by simp) run hrun
      rwa [headD_append_singleton cur t 0 hcur] at this

/-- Consecutive runs of the gap partition are separated by more than 60
seconds. -/
theorem gapSplitGo_across :
    ∀ (rest cur : List Int) (last : Int), cur.getLast? = some last →
      List.Chain' (fun r1 r2 => r2.headD 0 - r1.getLastD 0 > 60)
        (gapSplitGo cur last rest) := by
  intro rest
  induction rest with
  | nil => intro cur last _; exact List.chain'_singleton cur
  | cons t rest ih =>
    intro cur last hlast
    by_cases hgap : t - last > 60
    · simp only [gapSplitGo, if_pos hgap]
      refine List.chain'_cons'.mpr ⟨?_, ih [t] t rfl⟩
      intro y hy
      have hhead := gapSplitGo_head rest [t] t (by simp) y hy
      simp only [List.headD_cons] at hhead
      rw [hhead]
      rw [List.getLastD_eq_getLast?, hlast]
      simpa using hgap
    · simp only [gapSplitGo, if_neg hgap]
      exact ih (cur ++ [t]) t (List.getLast?_concat cur)

/-- C7: for strictly increasing timestamps within `[start, stop)` (so that
the SQL select returns exactly them, in order), `get_active_blocks` returns
one block per run of the gap-≤-60 partition of the timestamps, the runs
concatenate back to the timestamps (a partition), consecutive timestamps
within a run differ by ≤ 60, the first timestamp of each later run exceeds
the previous run's last by > 60, each block is
`⟨first, last + capture_interval_secs, last − first + capture_interval_secs⟩`
(the shape of `mkBlock`), and an empty range yields no blocks. -/
theorem get_active_blocks_spec (ts : List Int) (s e ci : Int)
    (hmono : List.Chain' (· < ·) ts)
    (hrange : ∀ t ∈ ts, s ≤ t ∧ t < e) :
    get_active_blocks ts s e ci = (gapSplit ts).map (mkBlock ci) ∧
    (gapSplit ts).flatten = ts ∧
    (∀ run ∈ gapSplit ts, List.Chain' (fun a b => b - a ≤ 60) run) ∧
    List.Chain' (fun r1 r2 => r2.headD 0 - r1.getLastD 0 > 60) (gapSplit ts) ∧
    (ts = [] → get_active_blocks ts s e ci = []) := by
  have hfilter : (ts.filter (fun t => s ≤ t && t < e)) = ts := by
    refine List.filter_eq_self.mpr ?_
    intro a ha
    have := hrange a ha
    simp [this.1, this.2]
  have hsorted : List.Sorted (· ≤ ·) ts := by
    have hp : List.Pairwise (· < ·) ts :=
      (List.chain'_iff_pairwise).mp hmono
    exact hp.imp le_of_lt
  have hsel : selectedTimestamps ts s e = ts := by
    unfold selectedTimestamps
    rw [hfilter]
    exact hsorted.insertionSort_eq
  refine ⟨?_, ?_, ?_, ?_, ?_⟩
  · unfold get_active_blocks
    rw [hsel]
    cases ts with
    | nil => rfl
    | cons t rest =>
      have := activeBlocksGo_eq_gapSplitGo ci rest [t] (by simp)
      simpa [gapSplit] using this
  · cases ts with
    | nil => rfl
    | cons t rest => simpa [gapSplit] using gapSplitGo_flatten rest [t] t
  · cases ts with
    | nil => intro run hrun; simp [gapSplit] at hrun
    | cons t rest =>
      intro run hrun
      exact gapSplitGo_within rest [t] t rfl (List.chain'_singleton t) run hrun
  · cases ts with
    | nil => exact List.chain'_nil
    | cons t rest => exact gapSplitGo_across rest [t] t rfl
  · intro h
    subst h
    rfl

/-- Witness for C7: spec scenario S5 — timestamps `[0, 10, 20, 200, 210]`
with capture interval 5 in the range `[0, 1000)`. -/
theorem get_active_blocks_spec_witness :
    (List.Chain' (· < ·) [(0 : Int), 10, 20, 200, 210] ∧
     ∀ t ∈ [(0 : Int), 10, 20, 200, 210], 0 ≤ t ∧ t < 1000) ∧
    get_active_blocks [(0 : Int), 10, 20, 200, 210] 0 1000 5 =
      (gapSplit [(0 : Int), 10, 20, 200, 210]).map (mkBlock 5) ∧
    get_active_blocks [(0 : Int), 10, 20, 200, 210] 0 1000 5 =
      [⟨0, 25, 25⟩, ⟨200, 215, 15⟩] :=
  ⟨⟨by norm_num [List.chain'_cons], by decide⟩,
   (get_active_blocks_spec [(0 : Int), 10, 20, 200, 210] 0 1000 5
      (by norm_num [List.chain'_cons]) (by decide)).1,
   by decide⟩

/-! ## Scene-dedup lemmas (C4, C5, C10) -/

/-- A hamming distance within a sane threshold certifies both hashes are
valid 8-byte hashes (an invalid pair yields `u32::MAX`). -/
theorem hamming_le_valid {a b : List Nat} {t : Nat}
    (h : hamming_distance a b ≤ t) (ht : t ≤ 64) :
    a.length = 8 ∧ b.length = 8 := by
  by_contra hc
  rw [hamming_distance, if_neg hc] at h
  simp only [u32MAX] at h
  omega

/-- A byte differs from itself in no bit. -/
theorem byteBitsDiff_self (x : Nat) : byteBitsDiff x x = 0 := by
  simp [byteBitsDiff]

/-- An element of `l.zip l` pairs an element with itself. -/
theorem mem_zip_self {α : Type} {l : List α} {p : α × α} (hp : p ∈ l.zip l) :
    p.1 = p.2 := by
  induction l with
  | nil => simp [List.zip] at hp
  | cons a l ih =>
    simp only [List.zip_cons_cons, List.mem_cons] at hp
    rcases hp with rfl | hp
    · rfl
    · exact ih hp

/-- A valid hash is at distance 0 from itself. -/
theorem hamming_self {h : List Nat} (hlen : h.length = 8) :
    hamming_distance h h = 0 := by
  rw [hamming_distance, if_pos ⟨hlen, hlen⟩]
  apply List.sum_eq_zero
  intro x hx
  rcases List.mem_map.mp hx with ⟨p, hp, rfl⟩
  rw [mem_zip_self hp]
  exact byteBitsDiff_self p.2

/-- `tryAssign` returns `none` exactly when no group's representative has a
stored hash within `t` of `ha`. -/
theorem tryAssign_eq_none_iff (hashOf : Int → Option (List Nat)) (t : Nat)
    (ha : List Nat) (rid : Int) :
    ∀ gs : List DedupGroup,
      tryAssign hashOf t ha rid gs = none ↔
        ∀ g ∈ gs, ∀ hb, hashOf g.1.id = some hb →
          ¬ hamming_distance ha hb ≤ t := by
  intro gs
  induction gs with
  | nil => simp [tryAssign]
  | cons g gs ih =>
    cases hh : hashOf g.1.id with
    | none =>
      simp only [tryAssign, hh, Option.map_eq_none']
      constructor
      · intro h g' hg' hb hhb
        rcases List.mem_cons.mp hg' with rfl | hg'
        · rw [hh] at hhb
          exact absurd hhb (by simp)
        · exact (ih.mp h) g' hg' hb hhb
      · intro h
        exact ih.mpr (fun g' hg' hb hhb => h g' (List.mem_cons_of_mem g hg') hb hhb)
    | some hb =>
      by_cases hd : hamming_distance ha hb ≤ t
      · simp only [tryAssign, hh, if_pos hd]
        constructor
        · intro h
          exact absurd h (by simp)
        · intro h
          exact absurd hd (h g (List.mem_cons_self g gs) hb hh)
      · simp only [tryAssign, hh, if_neg hd, Option.map_eq_none']
        constructor
        · intro h g' hg' hb' hhb'
          rcases List.mem_cons.mp hg' with rfl | hg'
          · rw [hh] at hhb'
            injection hhb' with e
            subst e
            exact hd
          · exact (ih.mp h) g' hg' hb' hhb'
        · intro h
          exact ih.mpr (fun g' hg' hb' hhb' => h g' (List.mem_cons_of_mem g hg') hb' hhb')

/-- A successful `tryAssign` only appends a member id: the representatives
are unchanged. -/
theorem tryAssign_some_reps (hashOf : Int → Option (List Nat)) (t : Nat)
    (ha : List Nat) (rid : Int) :
    ∀ (gs gs' : List DedupGroup), tryAssign hashOf t ha rid gs = some gs' →
      gs'.map Prod.fst = gs.map Prod.fst := by
  intro gs
  induction gs with
  | nil =>
    intro gs' h
    simp [tryAssign] at h
  | cons g gs ih =>
    intro gs' h
    cases hh : hashOf g.1.id with
    | none =>
      simp only [tryAssign, hh, Option.map_eq_some'] at h
      rcases h with ⟨a, ha', rfl⟩
      simp [ih a ha']
    | some hb =>
      by_cases hd : hamming_distance ha hb ≤ t
      · simp only [tryAssign, hh, if_pos hd, Option.some.injEq] at h
        subst h
        simp
      · simp only [tryAssign, hh, if_neg hd, Option.map_eq_some'] at h
        rcases h with ⟨a, ha', rfl⟩
        simp [ih a ha']

/-- Members of a successful `tryAssign`'s output: each group is either an
old group or an old group with the candidate id appended — the latter only
when the candidate's hash is within `t` of the representative's. -/
theorem tryAssign_some_mem (hashOf : Int → Option (List Nat)) (t : Nat)
    (ha : List Nat) (rid : Int) :
    ∀ (gs gs' : List DedupGroup), tryAssign hashOf t ha rid gs = some gs' →
      ∀ g' ∈ gs', g' ∈ gs ∨
        ∃ g ∈ gs, g' = (g.1, g.2 ++ [rid]) ∧
          ∃ hb, hashOf g.1.id = some hb ∧ hamming_distance ha hb ≤ t := by
  intro gs
  induction gs with
  | nil =>
    intro gs' h
    simp [tryAssign] at h
  | cons g gs ih =>
    intro gs' h g' hg'
    cases hh : hashOf g.1.id with
    | none =>
      simp only [tryAssign, hh, Option.map_eq_some'] at h
      rcases h with ⟨a, ha', rfl⟩
      rcases List.mem_cons.mp hg' with rfl | hg'
      · exact Or.inl (List.mem_cons_self _ _)
      · rcases ih a ha' g' hg' with hold | ⟨g0, hg0, he, hb, hhb, hd⟩
        · exact Or.inl (List.mem_cons_of_mem g hold)
        · exact Or.inr ⟨g0, List.mem_cons_of_mem g hg0, he, hb, hhb, hd⟩
    | some hb =>
      by_cases hd : hamming_distance ha hb ≤ t
      · simp only [tryAssign, hh, if_pos hd, Option.some.injEq] at h
        subst h
        rcases List.mem_cons.mp hg' with rfl | hg'
        · exact Or.inr ⟨g, List.mem_cons_self g gs, rfl, hb, hh, hd⟩
        · exact Or.inl (List.mem_cons_of_mem g hg')
      · simp only [tryAssign, hh, if_neg hd, Option.map_eq_some'] at h
        rcases h with ⟨a, ha', rfl⟩
        rcases List.mem_cons.mp hg' with rfl | hg'
        · exact Or.inl (List.mem_cons_self _ _)
        · rcases ih a ha' g' hg' with hold | ⟨g0, hg0, he, hb', hhb', hd'⟩
          · exact Or.inl (List.mem_cons_of_mem g hold)
          · exact Or.inr ⟨g0, List.mem_cons_of_mem g hg0, he, hb', hhb', hd'⟩

/-- `dedupInsert` grows the group list by at most one and never shrinks
it. -/
theorem dedupInsert_length (hashOf : Int → Option (List Nat)) (t : Nat)
    (gs : List DedupGroup) (r : SearchResult) :
    gs.length ≤ (dedupInsert hashOf t gs r).length ∧
    (dedupInsert hashOf t gs r).length ≤ gs.length + 1 := by
  unfold dedupInsert
  cases hr : hashOf r.id with
  | none => simp
  | some ha =>
    cases ht : tryAssign hashOf t ha r.id gs with
    | none => simp [ht]
    | some gs' =>
      have hreps := tryAssign_some_reps hashOf t ha r.id gs gs' ht
      have hlen : gs'.length = gs.length := by
        have := congrArg List.length hreps
        simpa using this
      simp [ht, hlen]

/-- Group count bounds of the full fold. -/
theorem dedupGroups_length_bounds (hashOf : Int → Option (List Nat)) (t : Nat) :
    ∀ (results : List SearchResult) (gs : List DedupGroup),
      (results.foldl (dedupInsert hashOf t) gs).length ≤
        gs.length + results.length ∧
      gs.length ≤ (results.foldl (dedupInsert hashOf t) gs).length := by
  intro results
  induction results with
  | nil =>
    intro gs
    simp
  | cons r rest ih =>
    intro gs
    have h1 := dedupInsert_length hashOf t gs r
    have h2 := ih (dedupInsert hashOf t gs r)
    simp only [List.foldl_cons, List.length_cons]
    omega

/-- `buildDeduped` emits one result per group. -/
theorem buildDeduped_length (gs : List DedupGroup) :
    (buildDeduped gs).length = gs.length := by
  simp [buildDeduped]

/-- Dedup never returns more results than it was given. -/
theorem deduplicate_results_length_le (hashOf : Int → Option (List Nat))
    (results : List SearchResult) (t : Nat) :
    (deduplicate_results hashOf results t).length ≤ results.length := by
  unfold deduplicate_results
  split
  · exact Nat.le_refl _
  · rw [buildDeduped_length]
    have := (dedupGroups_length_bounds hashOf t results []).1
    simpa [dedupGroups] using this

/-- `buildDeduped` keeps each representative's id. -/
theorem buildDeduped_map_id (gs : List DedupGroup) :
    (buildDeduped gs).map (fun r => r.id) = gs.map (fun g => g.1.id) := by
  unfold buildDeduped
  rw [List.map_map]
  apply List.map_congr_left
  intro g _
  dsimp only [Function.comp]
  split <;> rfl

/-- `buildDeduped` of all-singleton groups is the identity on the
underlying results. -/
theorem buildDeduped_singletons (xs : List SearchResult) :
    buildDeduped (xs.map (fun x => (x, [x.id]))) = xs := by
  unfold buildDeduped
  rw [List.map_map]
  induction xs with
  | nil => rfl
  | cons x xs ih => simpa using ih

/-- Inserting a candidate preserves that no later group's representative
matches an earlier one's (new groups are created only when nothing
matched). -/
theorem dedupInsert_pairwise (hashOf : Int → Option (List Nat)) (t : Nat)
    (gs : List DedupGroup) (r : SearchResult)
    (hp : List.Pairwise
      (fun g g' : DedupGroup => matchB hashOf t g'.1.id g.1.id = false) gs) :
    List.Pairwise
      (fun g g' : DedupGroup => matchB hashOf t g'.1.id g.1.id = false)
      (dedupInsert hashOf t gs r) := by
  unfold dedupInsert
  cases hr : hashOf r.id with
  | none =>
    refine List.pairwise_append.mpr ⟨hp, List.pairwise_singleton _ _, ?_⟩
    intro g hg g' hg'
    simp only [List.mem_singleton] at hg'
    subst hg'
    simp [matchB, hr]
  | some ha =>
    cases hta : tryAssign hashOf t ha r.id gs with
    | some gs' =>
      simp only [hta]
      have hreps := tryAssign_some_reps hashOf t ha r.id gs gs' hta
      have h1 : List.Pairwise
          (fun x y : SearchResult => matchB hashOf t y.id x.id = false)
          (gs.map Prod.fst) := List.pairwise_map.mpr hp
      rw [← hreps] at h1
      exact List.pairwise_map.mp h1
    | none =>
      simp only [hta]
      refine List.pairwise_append.mpr ⟨hp, List.pairwise_singleton _ _, ?_⟩
      intro g hg g' hg'
      simp only [List.mem_singleton] at hg'
      subst hg'
      have hnone := (tryAssign_eq_none_iff hashOf t ha r.id gs).mp hta g hg
      cases hh : hashOf g.1.id with
      | none => simp [matchB, hr, hh]
      | some hb =>
        simp only [matchB, hr, hh, decide_eq_false_iff_not]
        exact hnone hb hh

/-- The groups built by the full fold have pairwise non-matching
representatives (in creation order). -/
theorem dedupGroups_pairwise (hashOf : Int → Option (List Nat)) (t : Nat)
    (results : List SearchResult) :
    List.Pairwise
      (fun g g' : DedupGroup => matchB hashOf t g'.1.id g.1.id = false)
      (dedupGroups hashOf t results) := by
  suffices h : ∀ (rs : List SearchResult) (gs : List DedupGroup),
      List.Pairwise
        (fun g g' : DedupGroup => matchB hashOf t g'.1.id g.1.id = false) gs →
      List.Pairwise
        (fun g g' : DedupGroup => matchB hashOf t g'.1.id g.1.id = false)
        (rs.foldl (dedupInsert hashOf t) gs) by
    exact h results [] List.Pairwise.nil
  intro rs
  induction rs with
  | nil => intro gs hgs; exact hgs
  | cons r rest ih =>
    intro gs hgs
    exact ih _ (dedupInsert_pairwise hashOf t gs r hgs)

/-- Inserting a candidate preserves that each group's member list starts
with its representative's id and that a member with an invalid-length
stored hash is alone in its group (for a sane threshold). -/
theorem dedupInsert_heads_invalid (hashOf : Int → Option (List Nat)) (t : Nat)
    (ht64 : t ≤ 64) (gs : List DedupGroup) (r : SearchResult)
    (hheads : ∀ g ∈ gs, g.2.head? = some g.1.id)
    (hinv : ∀ g ∈ gs, ∀ i ∈ g.2, ∀ hsh, hashOf i = some hsh →
      hsh.length ≠ 8 → g.2 = [i]) :
    (∀ g ∈ dedupInsert hashOf t gs r, g.2.head? = some g.1.id) ∧
    (∀ g ∈ dedupInsert hashOf t gs r, ∀ i ∈ g.2, ∀ hsh, hashOf i = some hsh →
      hsh.length ≠ 8 → g.2 = [i]) := by
  have happend :
      (∀ g ∈ gs ++ [(r, [r.id])], g.2.head? = some g.1.id) ∧
      (∀ g ∈ gs ++ [(r, [r.id])], ∀ i ∈ g.2, ∀ hsh, hashOf i = some hsh →
        hsh.length ≠ 8 → g.2 = [i]) := by
    constructor
    · intro g hg
      rcases List.mem_append.mp hg with h | h
      · exact hheads g h
      · simp only [List.mem_singleton] at h
        subst h
        rfl
    · intro g hg i hi hsh hhsh hlen
      rcases List.mem_append.mp hg with h | h
      · exact hinv g h i hi hsh hhsh hlen
      · simp only [List.mem_singleton] at h
        subst h
        simp only [List.mem_singleton] at hi
        subst hi
        rfl
  unfold dedupInsert
  cases hr : hashOf r.id with
  | none => exact happend
  | some ha =>
    cases hta : tryAssign hashOf t ha r.id gs with
    | none =>
      simp only [hta]
      exact happend
    | some gs' =>
      simp only [hta]
      constructor
      · intro g' hg'
        rcases tryAssign_some_mem hashOf t ha r.id gs gs' hta g' hg' with
          hold | ⟨g0, hg0, rfl, hb, hhb, hd⟩
        · exact hheads g' hold
        · have h0 := hheads g0 hg0
          cases hcur : g0.2 with
          | nil =>
            rw [hcur] at h0
            exact absurd h0 (by simp)
          | cons a l =>
            rw [hcur] at h0
            simp only [List.head?_cons, Option.some.injEq] at h0
            simp [h0]
      · intro g' hg' i hi hsh hhsh hlen
        rcases tryAssign_some_mem hashOf t ha r.id gs gs' hta g' hg' with
          hold | ⟨g0, hg0, rfl, hb, hhb, hd⟩
        · exact hinv g' hold i hi hsh hhsh hlen
        · have hvalid := hamming_le_valid hd ht64
          simp only at hi
          rcases List.mem_append.mp hi with hiold | hinew
          · have hsing := hinv g0 hg0 i hiold hsh hhsh hlen
            have h0 := hheads g0 hg0
            rw [hsing] at h0
            simp only [List.head?_cons, Option.some.injEq] at h0
            rw [← h0] at hhb
            rw [hhsh] at hhb
            injection hhb with e
            subst e
            exact absurd hvalid.2 hlen
          · simp only [List.mem_singleton] at hinew
            subst hinew
            rw [hr] at hhsh
            injection hhsh with e
            subst e
            exact absurd hvalid.1 hlen

/-- The head/invalid-singleton invariants hold of the full fold. -/
theorem dedupGroups_heads_invalid (hashOf : Int → Option (List Nat)) (t : Nat)
    (ht64 : t ≤ 64) (results : List SearchResult) :
    (∀ g ∈ dedupGroups hashOf t results, g.2.head? = some g.1.id) ∧
    (∀ g ∈ dedupGroups hashOf t results, ∀ i ∈ g.2, ∀ hsh,
      hashOf i = some hsh → hsh.length ≠ 8 → g.2 = [i]) := by
  suffices h : ∀ (rs : List SearchResult) (gs : List DedupGroup),
      (∀ g ∈ gs, g.2.head? = some g.1.id) →
      (∀ g ∈ gs, ∀ i ∈ g.2, ∀ hsh, hashOf i = some hsh → hsh.length ≠ 8 →
        g.2 = [i]) →
      (∀ g ∈ rs.foldl (dedupInsert hashOf t) gs, g.2.head? = some g.1.id) ∧
      (∀ g ∈ rs.foldl (dedupInsert hashOf t) gs, ∀ i ∈ g.2, ∀ hsh,
        hashOf i = some hsh → hsh.length ≠ 8 → g.2 = [i]) by
    exact h results [] (by simp) (by simp)
  intro rs
  induction rs with
  | nil => intro gs h1 h2; exact ⟨h1, h2⟩
  | cons r rest ih =>
    intro gs h1 h2
    have hstep := dedupInsert_heads_invalid hashOf t ht64 gs r h1 h2
    exact ih _ hstep.1 hstep.2

/-- Folding candidates that match no existing group and none of each other
produces only singleton groups, in order. -/
theorem foldl_dedupInsert_no_match (hashOf : Int → Option (List Nat)) (t : Nat) :
    ∀ (xs ys : List SearchResult),
      (∀ x ∈ xs, ∀ y ∈ ys, matchB hashOf t x.id y.id = false) →
      List.Pairwise (fun a b : SearchResult => matchB hashOf t b.id a.id = false) xs →
      xs.foldl (dedupInsert hashOf t) (ys.map (fun y => (y, [y.id]))) =
        (ys ++ xs).map (fun y => (y, [y.id])) := by
  intro xs
  induction xs with
  | nil =>
    intro ys _ _
    simp
  | cons x xs ih =>
    intro ys hcross hpair
    have hstep : dedupInsert hashOf t (ys.map (fun y => (y, [y.id]))) x =
        ((ys ++ [x]).map (fun y => (y, [y.id]))) := by
      unfold dedupInsert
      cases hr : hashOf x.id with
      | none => simp
      | some ha =>
        have hnone : tryAssign hashOf t ha x.id (ys.map (fun y => (y, [y.id]))) = none := by
          refine (tryAssign_eq_none_iff hashOf t ha x.id _).mpr ?_
          intro g hg hb hhb
          rcases List.mem_map.mp hg with ⟨y, hy, rfl⟩
          have hm := hcross x (List.mem_cons_self x xs) y hy
          simp only [matchB, hr, hhb, decide_eq_false_iff_not] at hm
          exact hm
        simp [hnone]
    rw [List.foldl_cons, hstep]
    have hcross' : ∀ x' ∈ xs, ∀ y ∈ ys ++ [x], matchB hashOf t x'.id y.id = false := by
      intro x' hx' y hy
      rcases List.mem_append.mp hy with h | h
      · exact hcross x' (List.mem_cons_of_mem x hx') y h
      · simp only [List.mem_singleton] at h
        subst h
        exact (List.pairwise_cons.mp hpair).1 x' hx'
    have := ih (ys ++ [x]) hcross' (List.pairwise_cons.mp hpair).2
    rw [this]
    simp

/-- C5: scene deduplication is idempotent — applying `deduplicate_results`
to its own output, with the same stored hashes and threshold, returns that
output unchanged. (Every output element is a group representative; by
construction no representative matches an earlier one, so a second pass
makes every candidate its own singleton group and `buildDeduped` re-emits
it, group annotations and all, unchanged.) -/
theorem deduplicate_results_idempotent (hashOf : Int → Option (List Nat))
    (results : List SearchResult) (t : Nat) :
    deduplicate_results hashOf (deduplicate_results hashOf results t) t =
      deduplicate_results hashOf results t := by
  by_cases hbase : (results.isEmpty || t == 0) = true
  · have hinner : deduplicate_results hashOf results t = results := by
      rw [deduplicate_results, if_pos hbase]
    rw [hinner, hinner]
  · have hres : deduplicate_results hashOf results t =
        buildDeduped (dedupGroups hashOf t results) := by
      rw [deduplicate_results, if_neg hbase]
    have hne : results ≠ [] := by
      intro h
      subst h
      simp at hbase
    have ht0 : t ≠ 0 := by
      intro h
      subst h
      simp at hbase
    have houtne : buildDeduped (dedupGroups hashOf t results) ≠ [] := by
      rcases hr : results with _ | ⟨r, rest⟩
      · exact absurd hr hne
      · have hins : (dedupInsert hashOf t [] r).length = 1 := by
          unfold dedupInsert
          cases hashOf r.id <;> simp [tryAssign]
        have hlb := (dedupGroups_length_bounds hashOf t rest
          (dedupInsert hashOf t [] r)).2
        rw [hins] at hlb
        intro hnil
        have := buildDeduped_length (dedupGroups hashOf t (r :: rest))
        rw [hnil] at this
        simp only [List.length_nil] at this
        have hfold : dedupGroups hashOf t (r :: rest) =
            rest.foldl (dedupInsert hashOf t) (dedupInsert hashOf t [] r) := rfl
        rw [hfold] at this
        omega
    have hgp := dedupGroups_pairwise hashOf t results
    have hmapid := buildDeduped_map_id (dedupGroups hashOf t results)
    have hpout : List.Pairwise
        (fun a b : SearchResult => matchB hashOf t b.id a.id = false)
        (buildDeduped (dedupGroups hashOf t results)) := by
      have h1 : List.Pairwise (fun i j : Int => matchB hashOf t j i = false)
          ((dedupGroups hashOf t results).map (fun g => g.1.id)) :=
        List.pairwise_map.mpr hgp
      rw [← hmapid] at h1
      exact List.pairwise_map.mp h1
    have hsing : dedupGroups hashOf t (buildDeduped (dedupGroups hashOf t results)) =
        (buildDeduped (dedupGroups hashOf t results)).map (fun x => (x, [x.id])) := by
      have h := foldl_dedupInsert_no_match hashOf t
        (buildDeduped (dedupGroups hashOf t results)) []
        (by intro x _ y hy; simp at hy) hpout
      simpa [dedupGroups] using h
    have hcond2 : ¬ ((buildDeduped (dedupGroups hashOf t results)).isEmpty ||
        t == 0) = true := by
      simp only [Bool.or_eq_true, beq_iff_eq, List.isEmpty_iff]
      rintro (h | h)
      · exact houtne h
      · exact ht0 h
    rw [hres, deduplicate_results, if_neg hcond2, hsing, buildDeduped_singletons]

/-- Folding candidates that all share the representative's stored hash
appends every candidate to the one existing group. -/
theorem foldl_dedupInsert_uniform (hashOf : Int → Option (List Nat)) (t : Nat)
    (h : List Nat) (hlen : h.length = 8) (r : SearchResult)
    (hr : hashOf r.id = some h) :
    ∀ (xs : List SearchResult) (acc : List Int),
      (∀ x ∈ xs, hashOf x.id = some h) →
      xs.foldl (dedupInsert hashOf t) [(r, acc)] =
        [(r, acc ++ xs.map (fun x => x.id))] := by
  intro xs
  induction xs with
  | nil =>
    intro acc _
    simp
  | cons x rest ih =>
    intro acc hall
    have hx : hashOf x.id = some h := hall x (List.mem_cons_self x rest)
    have hstep : dedupInsert hashOf t [(r, acc)] x = [(r, acc ++ [x.id])] := by
      unfold dedupInsert
      simp only [hx]
      have hd : hamming_distance h h ≤ t := by
        rw [hamming_self hlen]
        exact Nat.zero_le t
      simp [tryAssign, hr, hd]
    rw [List.foldl_cons, hstep,
      ih (acc ++ [x.id]) (fun y hy => hall y (List.mem_cons_of_mem x hy))]
    simp

/-- With every candidate's stored hash present, the code's inner loop is the
spec's assignment walk. -/
theorem tryAssign_eq_specAssign (hashOf : Int → Option (List Nat)) (t : Nat)
    (ha : List Nat) (rid : Int) (hrid : hashOf rid = some ha) :
    ∀ gs : List DedupGroup, (∀ g ∈ gs, (hashOf g.1.id).isSome) →
      tryAssign hashOf t ha rid gs = specAssign hashOf t rid gs := by
  intro gs
  induction gs with
  | nil => intro _; rfl
  | cons g gs ih =>
    intro hall
    rcases Option.isSome_iff_exists.mp (hall g (List.mem_cons_self g gs)) with ⟨hb, hhb⟩
    have ihg := ih (fun g' hg' => hall g' (List.mem_cons_of_mem g hg'))
    by_cases hd : hamming_distance ha hb ≤ t
    · simp [tryAssign, specAssign, hhb, specDist, hrid, hd]
    · simp [tryAssign, specAssign, hhb, specDist, hrid, hd, ihg]

/-- With all hashes present, one candidate step of the code equals the
spec's. -/
theorem dedupInsert_eq_spec (hashOf : Int → Option (List Nat)) (t : Nat)
    (gs : List DedupGroup) (r : SearchResult)
    (hall : ∀ g ∈ gs, (hashOf g.1.id).isSome) (hr : (hashOf r.id).isSome) :
    dedupInsert hashOf t gs r = specDedupInsert hashOf t gs r := by
  rcases Option.isSome_iff_exists.mp hr with ⟨ha, hha⟩
  unfold dedupInsert specDedupInsert
  simp only [hha]
  rw [tryAssign_eq_specAssign hashOf t ha r.id hha gs hall]

/-- A candidate step keeps every representative's hash present. -/
theorem dedupInsert_reps_isSome (hashOf : Int → Option (List Nat)) (t : Nat)
    (gs : List DedupGroup) (r : SearchResult)
    (hall : ∀ g ∈ gs, (hashOf g.1.id).isSome) (hr : (hashOf r.id).isSome) :
    ∀ g' ∈ dedupInsert hashOf t gs r, (hashOf g'.1.id).isSome := by
  intro g' hg'
  rcases Option.isSome_iff_exists.mp hr with ⟨ha, hha⟩
  unfold dedupInsert at hg'
  simp only [hha] at hg'
  cases hta : tryAssign hashOf t ha r.id gs with
  | none =>
    simp only [hta] at hg'
    rcases List.mem_append.mp hg' with hmem | hmem
    · exact hall g' hmem
    · simp only [List.mem_singleton] at hmem
      subst hmem
      exact hr
  | some gs' =>
    simp only [hta] at hg'
    have hreps := tryAssign_some_reps hashOf t ha r.id gs gs' hta
    have hmem : g'.1 ∈ gs.map Prod.fst := by
      rw [← hreps]
      exact List.mem_map_of_mem Prod.fst hg'
    rcases List.mem_map.mp hmem with ⟨g0, hg0, he⟩
    rw [← he]
    exact hall g0 hg0

/-- With all hashes present, the full folds agree. -/
theorem foldl_dedupInsert_eq_spec (hashOf : Int → Option (List Nat)) (t : Nat) :
    ∀ (rs : List SearchResult) (gs : List DedupGroup),
      (∀ g ∈ gs, (hashOf g.1.id).isSome) →
      (∀ x ∈ rs, (hashOf x.id).isSome) →
      rs.foldl (dedupInsert hashOf t) gs =
        rs.foldl (specDedupInsert hashOf t) gs := by
  intro rs
  induction rs with
  | nil => intro gs _ _; rfl
  | cons x rest ih =>
    intro gs hg hx
    have hx0 := hx x (List.mem_cons_self x rest)
    have hstep := dedupInsert_eq_spec hashOf t gs x hg hx0
    rw [List.foldl_cons, List.foldl_cons, ← hstep]
    exact ih _ (dedupInsert_reps_isSome hashOf t gs x hg hx0)
      (fun y hy => hx y (List.mem_cons_of_mem x hy))

/-- C4: (i) for `N ≥ 2` results whose ids all share the same valid stored
hash and a threshold ≥ 1, scene dedup returns exactly the top-ranked member
carrying `group_count = N` and the full member id list of size N; (ii) more
generally (for results whose ids all have stored hashes) the code's greedy
grouping is exactly the spec's rank-order first-match assignment walk
(`specDeduplicate`). -/
theorem deduplicate_results_grouping :
    (∀ (hashOf : Int → Option (List Nat)) (t : Nat) (r : SearchResult)
        (rest : List SearchResult) (h : List Nat),
        (∀ x ∈ r :: rest, hashOf x.id = some h) → h.length = 8 → 1 ≤ t →
        1 ≤ rest.length →
        deduplicate_results hashOf (r :: rest) t =
          [{ r with
              group_count := some (((r :: rest).length : Nat) : Int),
              group_screenshot_ids := some ((r :: rest).map (fun x => x.id)) }]) ∧
    (∀ (hashOf : Int → Option (List Nat)) (t : Nat) (results : List SearchResult),
        (∀ x ∈ results, (hashOf x.id).isSome) →
        deduplicate_results hashOf results t =
          specDeduplicate hashOf results t) := by
  constructor
  · intro hashOf t r rest h hall hlen ht hrest
    have hcond : ¬ ((r :: rest).isEmpty || t == 0) = true := by
      simp only [List.isEmpty_cons, Bool.false_or, beq_iff_eq]
      omega
    rw [deduplicate_results, if_neg hcond]
    have hr := hall r (List.mem_cons_self r rest)
    have hfirst : dedupInsert hashOf t [] r = [(r, [r.id])] := by
      unfold dedupInsert
      simp [hr, tryAssign]
    have hfold : dedupGroups hashOf t (r :: rest) =
        [(r, [r.id] ++ rest.map (fun x => x.id))] := by
      have heq : dedupGroups hashOf t (r :: rest) =
          rest.foldl (dedupInsert hashOf t) (dedupInsert hashOf t [] r) := rfl
      rw [heq, hfirst,
        foldl_dedupInsert_uniform hashOf t h hlen r hr rest [r.id]
          (fun x hx => hall x (List.mem_cons_of_mem r hx))]
    rw [hfold]
    have hlen2 : 1 < ([r.id] ++ rest.map (fun x => x.id)).length := by
      simp only [List.length_append, List.length_cons, List.length_nil,
        List.length_map]
      omega
    simp [buildDeduped, hlen2]
    intro h0
    exfalso
    rw [h0] at hrest
    simp at hrest
  · intro hashOf t results hall
    unfold deduplicate_results specDeduplicate dedupGroups
    by_cases hc : (results.isEmpty || t == 0) = true
    · rw [if_pos hc, if_pos hc]
    · rw [if_neg hc, if_neg hc,
        foldl_dedupInsert_eq_spec hashOf t results [] (by simp) hall]

/-- Witness for C4: two results sharing `hashA` collapse to one annotated
representative, and on four distinct-hash results the code agrees with the
spec walk. -/
theorem deduplicate_results_grouping_witness :
    deduplicate_results uniformHashOf [mkResult 1, mkResult 2] 5 =
      [{ mkResult 1 with
          group_count := some 2,
          group_screenshot_ids := some [1, 2] }] ∧
    deduplicate_results distinctHashOf
        [mkResult 1, mkResult 2, mkResult 3, mkResult 4] 5 =
      specDeduplicate distinctHashOf
        [mkResult 1, mkResult 2, mkResult 3, mkResult 4] 5 :=
  ⟨deduplicate_results_grouping.1 uniformHashOf 5 (mkResult 1) [mkResult 2]
      hashA (by decide) (by decide) (by decide) (by decide),
   deduplicate_results_grouping.2 distinctHashOf 5
      [mkResult 1, mkResult 2, mkResult 3, mkResult 4] (by decide)⟩

/-- C10: `hamming_distance` is total on arbitrary byte lists (a Lean
function; the Rust original returns rather than panics on every input) and
returns `u32::MAX` whenever either input is not exactly 8 bytes; hence for
any threshold ≤ 64 `is_duplicate` never reports an invalid-length hash as a
duplicate, and in scene dedup a result whose stored hash has invalid length
is always alone in its group. -/
theorem hamming_invalid_never_duplicate :
    (∀ a b : List Nat, a.length ≠ 8 ∨ b.length ≠ 8 →
      hamming_distance a b = u32MAX) ∧
    (∀ (hash : List Nat) (recent : List (Int × List Nat)) (t : Nat),
      hash.length ≠ 8 → t ≤ 64 → is_duplicate hash recent t = false) ∧
    (∀ (hashOf : Int → Option (List Nat)) (t : Nat)
        (results : List SearchResult), t ≤ 64 →
      ∀ g ∈ dedupGroups hashOf t results, ∀ i ∈ g.2, ∀ hsh,
        hashOf i = some hsh → hsh.length ≠ 8 → g.2 = [i]) := by
  refine ⟨?_, ?_, ?_⟩
  · intro a b hor
    rw [hamming_distance, if_neg]
    tauto
  · intro hash recent t hlen ht
    rw [is_duplicate, List.any_eq_false]
    intro p hp
    have hd : hamming_distance hash p.2 = u32MAX := by
      rw [hamming_distance, if_neg]
      intro hand
      exact hlen hand.1
    simp only [hd, u32MAX, decide_eq_true_eq]
    omega
  · intro hashOf t results ht
    exact (dedupGroups_heads_invalid hashOf t ht results).2

/-- Witness for C10: a 3-byte hash against `hashA`, in `is_duplicate`, and
as the stored hash of id 5 in a two-result dedup. -/
theorem hamming_invalid_never_duplicate_witness :
    hamming_distance [0, 0, 0] hashA = u32MAX ∧
    is_duplicate [0, 0, 0] [(1, hashA)] 5 = false ∧
    ((mkResult 5, ([5] : List Int)) : DedupGroup).2 = [5] :=
  ⟨hamming_invalid_never_duplicate.1 [0, 0, 0] hashA (Or.inl (by decide)),
   hamming_invalid_never_duplicate.2.1 [0, 0, 0] [(1, hashA)] 5
     (by decide) (by decide),
   hamming_invalid_never_duplicate.2.2 shortHashOf 5 [mkResult 5, mkResult 1]
     (by decide) (mkResult 5, [5]) (by decide) 5 (by decide) [0, 0, 0]
     (by decide) (by decide)⟩

/-! ## Search pagination lemmas (C6) -/

/-- With dedup in effect, every page of `search_deduped` is the slice
`[offset, offset + limit)` of the one deduplicated over-fetched list. -/
theorem search_deduped_results_slice (hashOf : Int → Option (List Nat))
    (m : List SearchResult) (L t : Nat) (ht : 0 < t) (off : Nat) :
    (search_deduped hashOf m L off t).results =
      ((deduplicate_results hashOf (m.take (min (L * 3) 300)) t).drop off).take L := by
  unfold search_deduped
  simp only [ht, if_pos, gt_iff_lt, List.drop_zero]
  set D := deduplicate_results hashOf (m.take (min (L * 3) 300)) t with hD
  by_cases hoff : off < D.length
  · simp only [if_pos hoff]
    have hlen : (D.drop off).length = D.length - off := List.length_drop off D
    rw [List.take_eq_take]
    omega
  · simp only [if_neg hoff]
    rw [List.drop_eq_nil_of_le (by omega)]
    simp

/-- Slices of size `L` at offsets `0, L, ..., (n-1)·L` concatenate to the
first `n·L` elements. -/
theorem flatMap_slices_take {α : Type} (D : List α) (L : Nat) :
    ∀ n : Nat,
      (List.range n).flatMap (fun k => (D.drop (k * L)).take L) =
        D.take (n * L) := by
  intro n
  induction n with
  | zero => simp
  | succ n ih =>
    rw [List.range_succ, List.flatMap_append, ih]
    have : (n + 1) * L = n * L + L := by ring
    rw [this, List.take_add]
    simp

/-- Slices of size `L > 0` at offsets `0, L, 2L, ...` tile the whole list
once `n·L` covers its length. -/
theorem flatMap_slices_eq {α : Type} (D : List α) (L n : Nat)
    (hcov : D.length ≤ n * L) :
    (List.range n).flatMap (fun k => (D.drop (k * L)).take L) = D := by
  rw [flatMap_slices_take D L n]
  exact List.take_of_length_le hcov

/-- C6 amended: with scene dedup in effect the layer over-fetches
`min(3·L, 300)` top-ranked matching rows, dedups them once, and pages slice
that fixed deduplicated list — so the union of the pages at offsets
`0, L, 2L, …` is exactly the deduplication of the first `min(3·L, 300)`
matches (each element appearing in exactly one page), `total_count` of every
page is that deduplicated list's cardinality, and pagination is complete —
the union equals the deduplication of the full match set — exactly when the
match set fits in the over-fetch cap. -/
theorem search_pagination (hashOf : Int → Option (List Nat))
    (m : List SearchResult) (L t : Nat) (hL : 0 < L) (ht : 0 < t) :
    allPagesUnion hashOf m L t =
      deduplicate_results hashOf (m.take (min (L * 3) 300)) t ∧
    (∀ k : Nat, (search_deduped hashOf m L (k * L) t).total_count =
      ((deduplicate_results hashOf (m.take (min (L * 3) 300)) t).length : Int)) ∧
    (m.length ≤ min (L * 3) 300 →
      allPagesUnion hashOf m L t = deduplicate_results hashOf m t) := by
  have hslice := search_deduped_results_slice hashOf m L t ht
  have hmain : allPagesUnion hashOf m L t =
      deduplicate_results hashOf (m.take (min (L * 3) 300)) t := by
    unfold allPagesUnion
    have hrw : ∀ k : Nat, (search_deduped hashOf m L (k * L) t).results =
        ((deduplicate_results hashOf (m.take (min (L * 3) 300)) t).drop (k * L)).take L :=
      fun k => hslice (k * L)
    simp only [hrw]
    apply flatMap_slices_eq
    have h1 : (deduplicate_results hashOf (m.take (min (L * 3) 300)) t).length ≤
        m.length := by
      calc (deduplicate_results hashOf (m.take (min (L * 3) 300)) t).length
          ≤ (m.take (min (L * 3) 300)).length :=
            deduplicate_results_length_le hashOf _ t
        _ ≤ m.length := by
            rw [List.length_take]
            omega
    have h2 : m.length + 1 ≤ (m.length + 1) * L :=
      Nat.le_mul_of_pos_right _ hL
    omega
  refine ⟨hmain, ?_, ?_⟩
  · intro k
    unfold search_deduped
    simp only [ht, if_pos, gt_iff_lt, List.drop_zero]
  · intro hfit
    rw [hmain, List.take_of_length_le hfit]

/-- C6 counterexample: four matching results with pairwise-distant stored
hashes, page size 1, default threshold 5. The over-fetch cap is
`min(3·1, 300) = 3`, so the union of all pages has only ids 1, 2, 3 and
misses the matching id 4 — even though the full match set (and even its
deduplication) has all four ids. Pagination completeness fails. -/
theorem search_pagination_cex :
    (allPagesUnion distinctHashOf
        [mkResult 1, mkResult 2, mkResult 3, mkResult 4] 1
        DEDUP_THRESHOLD).map (fun r => r.id) = [1, 2, 3] ∧
    ([mkResult 1, mkResult 2, mkResult 3, mkResult 4].map (fun r => r.id)) =
      [1, 2, 3, 4] ∧
    (deduplicate_results distinctHashOf
        [mkResult 1, mkResult 2, mkResult 3, mkResult 4]
        DEDUP_THRESHOLD).map (fun r => r.id) = [1, 2, 3, 4] := by
  decide

/-- Witness for C6 amended: the same four-result fixture at page size 1. -/
theorem search_pagination_witness :
    allPagesUnion distinctHashOf
        [mkResult 1, mkResult 2, mkResult 3, mkResult 4] 1 5 =
      deduplicate_results distinctHashOf
        ([mkResult 1, mkResult 2, mkResult 3, mkResult 4].take (min (1 * 3) 300))
        5 :=
  (search_pagination distinctHashOf
    [mkResult 1, mkResult 2, mkResult 3, mkResult 4] 1 5
    (by decide) (by decide)).1

/-! ## TSV parser lemmas (C8) -/

/-- A row the accept predicate rejects leaves the parse state unchanged
(the guards of `parseTsvRow` and `acceptRow` are identical). -/
theorem parseTsvRow_none (st : TsvParseState) (line : List Char)
    (h : acceptRow line = none) : parseTsvRow st line = st := by
  unfold parseTsvRow
  unfold acceptRow at h
  by_cases h12 : (splitOnChar '\t' line).length < 12
  · simp [h12]
  · simp only [if_neg h12] at h ⊢
    cases hlvl : parseI32 ((splitOnChar '\t' line).getD 0 []) with
    | none => simp [hlvl]
    | some level =>
      simp only [hlvl] at h ⊢
      by_cases h5 : level ≠ 5
      · simp [h5]
      · simp only [if_neg h5] at h ⊢
        by_cases htc : rustTrim ((splitOnChar '\t' line).getD 11 []) = [] ∨
            (parseF32AsRat ((splitOnChar '\t' line).getD 10 [])).getD (-1) <
              MIN_CONFIDENCE
        · rw [if_pos htc]
        · simp only [if_neg htc] at h
          exact absurd h (by simp)

/-- A row the accept predicate accepts as `w` advances the parse state
exactly as the Rust loop body does. -/
theorem parseTsvRow_some (st : TsvParseState) (line : List Char)
    (w : List Char × Int × NewBoundingBox) (h : acceptRow line = some w) :
    parseTsvRow st line =
      { full_text_parts :=
          (if 0 ≤ st.current_line_num ∧ w.2.1 ≠ st.current_line_num ∧
              st.full_text_parts ≠ [] then st.full_text_parts ++ [['\n']]
           else st.full_text_parts) ++ [w.1],
        bounding_boxes := st.bounding_boxes ++ [w.2.2],
        current_line_num := w.2.1,
        word_count := st.word_count + 1 } := by
  unfold parseTsvRow
  unfold acceptRow at h
  by_cases h12 : (splitOnChar '\t' line).length < 12
  · simp [h12] at h
  · simp only [if_neg h12] at h ⊢
    cases hlvl : parseI32 ((splitOnChar '\t' line).getD 0 []) with
    | none =>
      rw [hlvl] at h
      simp at h
    | some level =>
      simp only [hlvl] at h ⊢
      by_cases h5 : level ≠ 5
      · simp [h5] at h
      · simp only [if_neg h5] at h ⊢
        by_cases htc : rustTrim ((splitOnChar '\t' line).getD 11 []) = [] ∨
            (parseF32AsRat ((splitOnChar '\t' line).getD 10 [])).getD (-1) <
              MIN_CONFIDENCE
        · rw [if_pos htc] at h
          simp at h
        · simp only [if_neg htc, Option.some.injEq] at h
          subst h
          rw [if_neg htc]

/-- Appending one pair to the marker/word rendering. -/
theorem renderPartsGo_concat :
    ∀ (ps : List (List Char × Int)) (prev : Int) (q : List Char × Int),
      renderPartsGo prev (ps ++ [q]) =
        renderPartsGo prev ps ++
          ((if q.2 ≠ ((ps.getLast?).map (fun p => p.2)).getD prev then [['\n']]
            else []) ++ [q.1]) := by
  intro ps
  induction ps with
  | nil =>
    intro prev q
    rcases q with ⟨t, l⟩
    simp [renderPartsGo]
  | cons r ps ih =>
    intro prev q
    rcases r with ⟨rt, rl⟩
    have hlast : ((((rt, rl) :: ps).getLast?).map (fun p => p.2)).getD prev =
        ((ps.getLast?).map (fun p => p.2)).getD rl := by
      cases ps with
      | nil => simp
      | cons a l =>
        rw [List.getLast?_cons_cons]
        cases hgl : (a :: l).getLast? with
        | none => simp at hgl
        | some p => rfl
    rw [hlast]
    simp only [List.cons_append, renderPartsGo, List.append_eq]
    rw [ih rl q]
    simp [List.append_assoc]

/-- `lastLineP` of a cons, with the head's line as the default. -/
theorem lastLineP_cons (p0 : List Char × Int) (ps : List (List Char × Int)) :
    lastLineP (p0 :: ps) = ((ps.getLast?).map (fun p => p.2)).getD p0.2 := by
  cases ps with
  | nil => rfl
  | cons a l =>
    unfold lastLineP
    rw [List.getLast?_cons_cons]
    cases hgl : (a :: l).getLast? with
    | none => simp at hgl
    | some p => rfl

/-- Appending one pair to a non-empty rendering. -/
theorem renderParts_concat (ps : List (List Char × Int)) (q : List Char × Int)
    (hps : ps ≠ []) :
    renderParts (ps ++ [q]) =
      renderParts ps ++
        ((if q.2 ≠ lastLineP ps then [['\n']] else []) ++ [q.1]) := by
  cases ps with
  | nil => exact absurd rfl hps
  | cons p0 ps' =>
    rw [List.cons_append]
    simp only [renderParts]
    rw [renderPartsGo_concat ps' p0.2 q, lastLineP_cons]
    simp [List.append_assoc]

/-- The parse state after one more accepted word. -/
theorem stateOf_concat (ws : List (List Char × Int × NewBoundingBox))
    (w : List Char × Int × NewBoundingBox)
    (hnn : ∀ v ∈ ws, 0 ≤ v.2.1) :
    ({ full_text_parts :=
        (if 0 ≤ (stateOf ws).current_line_num ∧
            w.2.1 ≠ (stateOf ws).current_line_num ∧
            (stateOf ws).full_text_parts ≠ [] then
          (stateOf ws).full_text_parts ++ [['\n']]
         else (stateOf ws).full_text_parts) ++ [w.1],
       bounding_boxes := (stateOf ws).bounding_boxes ++ [w.2.2],
       current_line_num := w.2.1,
       word_count := (stateOf ws).word_count + 1 } : TsvParseState) =
      stateOf (ws ++ [w]) := by
  have hpairs : pairsOf (ws ++ [w]) = pairsOf ws ++ [(w.1, w.2.1)] := by
    simp [pairsOf]
  have hlast : lastLineP (pairsOf (ws ++ [w])) = w.2.1 := by
    rw [hpairs]
    unfold lastLineP
    rw [List.getLast?_concat]
    rfl
  cases hws : ws with
  | nil =>
    subst hws
    simp [stateOf, pairsOf, renderParts, renderPartsGo, lastLineP,
      TsvParseState.mk.injEq]
  | cons v ws' =>
    rw [← hws]
    have hpne : pairsOf ws ≠ [] := by
      rw [hws]
      simp [pairsOf]
    have hrne : renderParts (pairsOf ws) ≠ [] := by
      rcases hp : pairsOf ws with _ | ⟨a, l⟩
      · exact absurd hp hpne
      · simp [renderParts]
    have hcur : 0 ≤ lastLineP (pairsOf ws) := by
      rcases hgl : (pairsOf ws).getLast? with _ | p
      · rw [List.getLast?_eq_none_iff] at hgl
        exact absurd hgl hpne
      · have : (ws.getLast?).map (fun v => (v.1, v.2.1)) = some p := by
          rw [← List.getLast?_map]
          exact hgl
        rcases Option.map_eq_some'.mp this with ⟨v0, hv0, hv0e⟩
        have hv0m := List.mem_of_getLast?_eq_some hv0
        have hge := hnn v0 hv0m
        unfold lastLineP
        rw [hgl]
        subst hv0e
        exact hge
    simp only [stateOf, TsvParseState.mk.injEq]
    refine ⟨?_, by simp, by rw [hlast], by simp [Int.natCast_add]⟩
    rw [hpairs, renderParts_concat (pairsOf ws) (w.1, w.2.1) hpne]
    by_cases hne : w.2.1 ≠ lastLineP (pairsOf ws)
    · rw [if_pos ⟨hcur, hne, hrne⟩, if_pos hne]
      simp [List.append_assoc]
    · rw [if_neg (by tauto), if_neg hne]
      simp

/-- The row-loop fold from any already-accepted prefix. -/
theorem foldl_parseTsvRow :
    ∀ (lines : List (List Char)) (ws0 : List (List Char × Int × NewBoundingBox)),
      (∀ w ∈ ws0 ++ lines.filterMap acceptRow, 0 ≤ w.2.1) →
      lines.foldl parseTsvRow (stateOf ws0) =
        stateOf (ws0 ++ lines.filterMap acceptRow) := by
  intro lines
  induction lines with
  | nil =>
    intro ws0 _
    simp
  | cons line rest ih =>
    intro ws0 hnn
    cases hacc : acceptRow line with
    | none =>
      rw [List.foldl_cons, parseTsvRow_none _ _ hacc,
        List.filterMap_cons_none hacc]
      rw [List.filterMap_cons_none hacc] at hnn
      exact ih ws0 hnn
    | some w =>
      have hnn0 : ∀ v ∈ ws0, 0 ≤ v.2.1 := by
        intro v hv
        exact hnn v (List.mem_append_left _ hv)
      rw [List.foldl_cons, parseTsvRow_some _ _ w hacc,
        stateOf_concat ws0 w hnn0]
      have hrec := ih (ws0 ++ [w]) (by
        intro v hv
        apply hnn v
        simp only [List.filterMap_cons, hacc]
        simp only [List.append_assoc, List.singleton_append] at hv ⊢
        exact hv)
      rw [hrec]
      simp [List.filterMap_cons, hacc]

/-- The trimmed text never ends in a whitespace character, in particular not
in a newline. -/
theorem rustTrim_getLast_not_newline (l : List Char) :
    (rustTrim l).getLast? ≠ some '\n' := by
  unfold rustTrim
  rw [List.getLast?_reverse]
  intro h
  have hdw := List.head?_dropWhile_not Char.isWhitespace
    ((l.dropWhile Char.isWhitespace).reverse)
  rw [h] at hdw
  exact absurd hdw (by decide)

/-- An accepted word's text is non-empty and does not end in a newline. -/
theorem acceptRow_text_ok (line : List Char)
    (w : List Char × Int × NewBoundingBox) (h : acceptRow line = some w) :
    w.1 ≠ [] ∧ w.1.getLast? ≠ some '\n' := by
  unfold acceptRow at h
  by_cases h12 : (splitOnChar '\t' line).length < 12
  · simp [h12] at h
  · simp only [if_neg h12] at h
    cases hlvl : parseI32 ((splitOnChar '\t' line).getD 0 []) with
    | none =>
      rw [hlvl] at h
      simp at h
    | some level =>
      simp only [hlvl] at h
      by_cases h5 : level ≠ 5
      · simp [h5] at h
      · simp only [if_neg h5] at h
        by_cases htc : rustTrim ((splitOnChar '\t' line).getD 11 []) = [] ∨
            (parseF32AsRat ((splitOnChar '\t' line).getD 10 [])).getD (-1) <
              MIN_CONFIDENCE
        · rw [if_pos htc] at h
          simp at h
        · simp only [if_neg htc, Option.some.injEq] at h
          subst h
          push_neg at htc
          exact ⟨htc.1, rustTrim_getLast_not_newline _⟩

/-- The `join_words` fold over the rendering of the remaining accepted
words, from a non-empty accumulated result that does not end in a
newline. -/
theorem join_go :
    ∀ (rest : List (List Char × Int)) (prev : Int) (s : List Char) (i : Nat),
      (∀ p ∈ rest, p.1 ≠ [] ∧ p.1.getLast? ≠ some '\n') →
      s ≠ [] → s.getLast? ≠ some '\n' → 0 < i →
      (List.foldl joinStep (s, i) (renderPartsGo prev rest)).1 =
        specJoinGo s prev rest := by
  intro rest
  induction rest with
  | nil =>
    intro prev s i _ _ _ _
    rfl
  | cons p rest ih =>
    rcases p with ⟨t, l⟩
    intro prev s i hws hs hsn hi
    have hT := hws (t, l) (List.mem_cons_self _ _)
    have htne : t ≠ ['\n'] := by
      intro he
      exact hT.2 (by rw [he]; rfl)
    have hws' : ∀ p ∈ rest, p.1 ≠ [] ∧ p.1.getLast? ≠ some '\n' :=
      fun p hp => hws p (List.mem_cons_of_mem _ hp)
    have htl : ∃ c, t.getLast? = some c := by
      rcases ht : t.getLast? with _ | c
      · rw [List.getLast?_eq_none_iff] at ht
        exact absurd ht hT.1
      · exact ⟨c, rfl⟩
    by_cases hl : l ≠ prev
    · simp only [renderPartsGo, if_pos hl, List.singleton_append,
        List.foldl_cons]
      have s1 : joinStep (s, i) ['\n'] = (s ++ ['\n'], i + 1) := by
        simp [joinStep]
      have s2 : joinStep (s ++ ['\n'], i + 1) t = ((s ++ ['\n']) ++ t, i + 2) := by
        unfold joinStep
        rw [if_neg htne]
        have hgl : (s ++ ['\n']).getLast? = some '\n' := List.getLast?_concat s
        simp [hgl]
      rw [s1, s2]
      have hlast2 : ((s ++ ['\n']) ++ t).getLast? = t.getLast? := by
        rcases htl with ⟨c, hc⟩
        rw [List.getLast?_append, hc]
        rfl
      rw [ih l ((s ++ ['\n']) ++ t) (i + 2) hws' (by simp)
        (by rw [hlast2]; exact hT.2) (by omega)]
      simp only [specJoinGo, if_pos hl]
    · simp only [renderPartsGo, if_neg hl, List.nil_append, List.foldl_cons]
      have s2 : joinStep (s, i) t = ((s ++ [' ']) ++ t, i + 1) := by
        unfold joinStep
        rw [if_neg htne]
        simp [hi, hs, hsn]
      rw [s2]
      have hlast2 : ((s ++ [' ']) ++ t).getLast? = t.getLast? := by
        rcases htl with ⟨c, hc⟩
        rw [List.getLast?_append, hc]
        rfl
      rw [ih l ((s ++ [' ']) ++ t) (i + 1) hws' (by simp)
        (by rw [hlast2]; exact hT.2) (by omega)]
      simp only [specJoinGo, if_neg hl]

/-- `join_words` over the rendered parts of accepted words equals the
spec-side join. -/
theorem join_words_renderParts (ps : List (List Char × Int))
    (hws : ∀ p ∈ ps, p.1 ≠ [] ∧ p.1.getLast? ≠ some '\n') :
    join_words (renderParts ps) = specJoin ps := by
  cases ps with
  | nil => rfl
  | cons p rest =>
    rcases p with ⟨t, l⟩
    have hT := hws (t, l) (List.mem_cons_self _ _)
    have htne : t ≠ ['\n'] := by
      intro he
      exact hT.2 (by rw [he]; rfl)
    unfold join_words renderParts specJoin
    rw [List.foldl_cons]
    have s1 : joinStep ([], 0) t = (t, 1) := by
      unfold joinStep
      rw [if_neg htne]
      simp
    rw [s1]
    exact join_go rest l t 1 (fun p hp => hws p (List.mem_cons_of_mem _ hp))
      hT.1 hT.2 (by omega)

/-- C8 amended: for every TSV input whose accepted words all have
non-negative parsed line indices (tesseract's always are; a negative index
defeats the `current_line_num >= 0` guard, see the counterexample),
`parse_tsv_output` returns exactly the spec-side result: the bounding boxes
are one per level-5 row with non-empty trimmed text and confidence ≥ 30,
`word_count` is their number, and the full text joins the accepted words
with single spaces except for exactly one newline wherever the line index
changes between consecutive accepted words. -/
theorem parse_tsv_output_spec (tsv : List Char)
    (hnn : ∀ w ∈ acceptedWords tsv, 0 ≤ w.2.1) :
    parse_tsv_output tsv = specParseTsv tsv := by
  unfold parse_tsv_output specParseTsv
  have hnn' : ∀ w ∈ [] ++ ((rustLines tsv).drop 1).filterMap acceptRow,
      0 ≤ w.2.1 := by
    intro w hw
    rw [List.nil_append] at hw
    exact hnn w hw
  have hfold := foldl_parseTsvRow ((rustLines tsv).drop 1) [] hnn'
  have hinit : (⟨[], [], -1, 0⟩ : TsvParseState) = stateOf [] := rfl
  rw [hinit, hfold, List.nil_append]
  have htexts : ∀ p ∈ pairsOf (((rustLines tsv).drop 1).filterMap acceptRow),
      p.1 ≠ [] ∧ p.1.getLast? ≠ some '\n' := by
    intro p hp
    rcases List.mem_map.mp hp with ⟨w, hw, rfl⟩
    rcases List.mem_filterMap.mp hw with ⟨line, _, hacc⟩
    exact acceptRow_text_ok line w hacc
  have hjoin := join_words_renderParts
    (pairsOf (((rustLines tsv).drop 1).filterMap acceptRow)) htexts
  dsimp only [stateOf]
  rw [hjoin]
  rfl

/-- Witness for C8 amended: `sampleTsv` (two words on line 1, one on
line 2, one low-confidence and one empty-text row skipped). -/
theorem parse_tsv_output_spec_witness :
    (∀ w ∈ acceptedWords sampleTsv, 0 ≤ w.2.1) ∧
    parse_tsv_output sampleTsv = specParseTsv sampleTsv ∧
    (parse_tsv_output sampleTsv).full_text = "Hi there\nok".toList ∧
    (parse_tsv_output sampleTsv).word_count = 3 ∧
    (parse_tsv_output sampleTsv).bounding_boxes.length = 3 :=
  ⟨by decide, parse_tsv_output_spec sampleTsv (by decide), by decide,
   by decide, by decide⟩

/-- C8 counterexample: in `negLineTsv` the two accepted words have parsed
line indices `-1` and `2` — the line index changes between consecutive
accepted words, so the claim requires a newline in the joined text — but
the code's `current_line_num >= 0` guard (ocr.rs:104) sees `-1` and joins
with a space instead. -/
theorem parse_tsv_newline_cex :
    pairsOf (acceptedWords negLineTsv) =
      [("A".toList, -1), ("B".toList, 2)] ∧
    (parse_tsv_output negLineTsv).full_text = "A B".toList ∧
    (specParseTsv negLineTsv).full_text = "A\nB".toList ∧
    parse_tsv_output negLineTsv ≠ specParseTsv negLineTsv := by
  refine ⟨by decide, by decide, by decide, ?_⟩
  intro h
  have h2 : (parse_tsv_output negLineTsv).full_text =
      (specParseTsv negLineTsv).full_text := by rw [h]
  revert h2
  decide

end RewindOS
